import Mathlib

/-!
Verification of the bifrost workspace materialization engine.

This file gives a shallow embedding of the core of the repository:

* `src/bifrost/core/workingdir.rs` — the directory walker (`WorkingDir::walk`,
  `ignorable`, `DirEntryExt` with its inverted `Ord`) and the materializing
  load (`try_load`, `_load`, `_load_top_level_dir`, `_load_dir`, `_load_files`);
* `src/bifrost/util/bifrost_path.rs` — the path guard (`BifrostPath::new`,
  `BifrostPath::check`, `BifrostPath::from_existing`,
  `BifrostPath::try_from_existing`);
* `src/bifrost/core/workspace.rs` — the operation pipeline pieces the claims
  need (`LoadSpace::load`, `UnloadSpace::prep/build/exec`).

The filesystem is modelled explicitly: a path is a list of components, a
component is either a valid-UTF-8 name or a non-UTF-8 byte string, a filesystem
state is an association list from paths to nodes (directory or file with
contents), and a source tree is an inductive tree mirroring what `walkdir`
traverses.  Fallible Rust functions return a result type `RRes` with
constructors for `Ok`, `Err` (a `failure::bail!`), a thread panic
(`expect`/`unwrap`), and `process::exit`.
-/

namespace Bifrost

/-- A filesystem name (`OsStr`): either a valid-UTF-8 string or a byte string
that is not valid UTF-8 (the `raw` constructor is only ever used for names
whose bytes are not valid UTF-8, so the two constructors never denote the same
on-disk name). -/
inductive OsName where
  | utf8 (s : String)
  | raw (bytes : List Nat)
deriving DecidableEq, Repr

/-- Models `OsStr::to_str`: `some` exactly for valid-UTF-8 names. -/
def OsName.toStr : OsName → Option String
  | .utf8 s => some s
  | .raw _ => none

/-- An absolute path, as its list of components (`PathBuf`). -/
abbrev FPath := List OsName

/-- Models `Path::strip_prefix`: returns the remaining suffix when the first
argument is a prefix of the second, and `none` (the `Err` case) otherwise. -/
def stripPrefix : FPath → FPath → Option FPath
  | [], q => some q
  | _ :: _, [] => none
  | a :: as, b :: bs => if a = b then stripPrefix as bs else none

/-- All components of a path are valid UTF-8, i.e. `PathBuf::to_str` succeeds. -/
def allUtf8 (p : FPath) : Bool := p.all (fun n => (OsName.toStr n).isSome)

/-- Models `str::starts_with(a)`: a character-wise prefix test on the
strings' character lists. -/
def strStartsWith (s a : String) : Bool := a.data.isPrefixOf s.data

/-- Models `workingdir::ignorable`: the entry's file name is converted with
`to_str`; on success the name is compared against every ignored name with
`str::starts_with`; a non-UTF-8 name yields `false` (`unwrap_or(false)`). -/
def ignorable (n : OsName) (ignore_list : List String) : Bool :=
  match OsName.toStr n with
  | some s => ignore_list.any (fun a => strStartsWith s a)
  | none => false

/-- A source tree as `walkdir` sees it.  `dir` and `file` are entries the
iterator yields as `Ok`; a `file` carries its contents together with the
result flag of the `fs::metadata` size read performed by `WorkingDir::walk`
(`statOk = false` makes that read fail).  `errEntry` is an entry the iterator
yields as `Err` (an unreadable entry). -/
inductive FTree where
  | dir (name : OsName) (children : List FTree)
  | file (name : OsName) (content : List Nat) (statOk : Bool)
  | errEntry (name : OsName)
deriving Repr

/-- The name of the tree's root entry. -/
def FTree.name : FTree → OsName
  | .dir n _ => n
  | .file n _ _ => n
  | .errEntry n => n

/-- The `DirEntryExt` wrapper from `workingdir.rs`: what the claims need from
the wrapped `walkdir::DirEntry` is its absolute path and its depth. -/
structure DirEntryExt where
  path : FPath
  depth : Nat
deriving DecidableEq, Repr

/-- The inverted comparison of `impl Ord for DirEntryExt`:
`other.0.depth().cmp(&self.0.depth())`. -/
def DirEntryExt.cmp (a b : DirEntryExt) : Ordering := compare b.depth a.depth

/-- Result of running a fallible Rust computation: `Ok`, `Err` (from
`failure::bail!`), a thread panic (`expect`/`unwrap` failure), or
`process::exit(code)`. -/
inductive RRes (α : Type) where
  | ok (a : α)
  | err (msg : String)
  | panicked (msg : String)
  | exited (code : Nat)
deriving DecidableEq, Repr

/-- The data accumulated by one walk: directory entries pushed onto the heap,
file paths pushed onto the file vector, and the running byte total. -/
abbrev WalkAcc := List DirEntryExt × List FPath × Nat

mutual
/-- One node of the traversal in `WorkingDir::walk`.  `pp` is the path of the
node's parent directory, `d` the node's `walkdir` depth, so the node's own
path is `pp ++ [t.name]`.  The `filter_entry(|e| !ignorable(e, ignore_list))`
filter prunes an `Ok` entry (and, for a directory, its whole subtree) when
`ignorable` holds; an `Err` entry is skipped by the `if let Ok(entry)` in the
walk loop.  An `Ok` directory entry is pushed; an `Ok` file entry has its size
read via `fs::metadata(..).expect(..)` — failure of that read panics — and is
pushed. -/
def walkVisit (L : List String) : FTree → FPath → Nat → RRes WalkAcc
  | .errEntry _, _, _ => .ok ([], [], 0)
  | .file n c stOk, pp, _ =>
    if ignorable n L then .ok ([], [], 0)
    else if stOk then .ok ([], [pp ++ [n]], c.length)
    else .panicked ("error: `WorkingDir::walk` failed to unwrap `fs::metadata`")
  | .dir n cs, pp, d =>
    if ignorable n L then .ok ([], [], 0)
    else
      match walkChildren L cs (pp ++ [n]) (d + 1) with
      | .ok (ds, fs, sz) => .ok (⟨pp ++ [n], d⟩ :: ds, fs, sz)
      | .err m => .err m
      | .panicked m => .panicked m
      | .exited c => .exited c

/-- The children of a directory, visited left to right; results are
concatenated in traversal order and byte totals added. -/
def walkChildren (L : List String) : List FTree → FPath → Nat → RRes WalkAcc
  | [], _, _ => .ok ([], [], 0)
  | t :: ts, pp, d =>
    match walkVisit L t pp d with
    | .ok (ds₁, fs₁, n₁) =>
      match walkChildren L ts pp d with
      | .ok (ds₂, fs₂, n₂) => .ok (ds₁ ++ ds₂, fs₁ ++ fs₂, n₁ + n₂)
      | .err m => .err m
      | .panicked m => .panicked m
      | .exited c => .exited c
    | .err m => .err m
    | .panicked m => .panicked m
    | .exited c => .exited c
end

/-- The `WorkingDir` structure of `workingdir.rs`.  The `BinaryHeap` of
directory entries is modelled as the list of its elements (`heapPop` below
models `BinaryHeap::pop` under the inverted `Ord` of `DirEntryExt`). -/
structure WorkingDir where
  parent : Option FPath
  root : FPath
  dirs : List DirEntryExt
  files : List FPath
  ignore_list : List String
  size : Nat
deriving DecidableEq, Repr

/-- Models `WorkingDir::new`: stores the given root and its parent and
initializes the collections empty. -/
def WorkingDir.new (root : FPath) : WorkingDir :=
  { parent := match root with | [] => none | _ => some root.dropLast
    root := root
    dirs := []
    files := []
    ignore_list := []
    size := 0 }

/-- Models `WorkingDir::ignore`: inserts every given name into the ignore
set. -/
def WorkingDir.ignore (wd : WorkingDir) (list : List String) : WorkingDir :=
  { wd with ignore_list := wd.ignore_list ++ list }

/-- Models `WorkingDir::walk` run over the source tree `t`, where `t` is the
filesystem entry located at `wd.root` (so `wd.root = wd.root.dropLast ++
[t.name]`).  On success the walked directories, files and byte total are added
to the respective fields. -/
def WorkingDir.walk (wd : WorkingDir) (t : FTree) : RRes WorkingDir :=
  match walkVisit wd.ignore_list t wd.root.dropLast 0 with
  | .ok (ds, fs, sz) =>
    .ok { wd with dirs := wd.dirs ++ ds, files := wd.files ++ fs, size := wd.size + sz }
  | .err m => .err m
  | .panicked m => .panicked m
  | .exited c => .exited c

/-- Models `BinaryHeap::pop` for the heap of `DirEntryExt`s: removes a
greatest element with respect to `DirEntryExt.cmp` — because that comparison
is inverted, a popped element has least depth among the remaining entries.
(The Rust heap leaves the choice among equal-depth entries unspecified; this
model resolves ties to the earliest pushed, which is one legal behavior.) -/
def heapPop : List DirEntryExt → Option (DirEntryExt × List DirEntryExt)
  | [] => none
  | e :: es =>
    match heapPop es with
    | none => some (e, [])
    | some (m, rest) =>
      if DirEntryExt.cmp e m = .lt then some (m, e :: rest) else some (e, es)

/-- Popping the heap until empty, fuelled by the number of remaining elements
(each `heapPop` removes exactly one element, so the fuel never runs out). -/
def drainAux : Nat → List DirEntryExt → List DirEntryExt
  | 0, _ => []
  | fuel + 1, h =>
    match heapPop h with
    | none => []
    | some (e, rest) => e :: drainAux fuel rest

/-- The sequence obtained by repeatedly popping the directory heap, exactly as
the load loop in `_load` consumes it. -/
def drainHeap (h : List DirEntryExt) : List DirEntryExt := drainAux h.length h

/-- A filesystem node: a directory, or a file with its contents (a byte
list; its length is the size reported by `fs::metadata` and the count
returned by `fs::copy`). -/
inductive Node where
  | dir
  | file (content : List Nat)
deriving DecidableEq, Repr

/-- A filesystem state: an association list from absolute paths to nodes.
A later binding for a path shadows an earlier one (`fsFind` returns the
first match), so updates simply cons. -/
abbrev FS := List (FPath × Node)

/-- Look a path up in the filesystem state. -/
def fsFind : FS → FPath → Option Node
  | [], _ => none
  | (q, n) :: σ, p => if q = p then some n else fsFind σ p

/-- Write a node at a path (shadowing any previous binding). -/
def fsSet (σ : FS) (p : FPath) (n : Node) : FS := (p, n) :: σ

/-- The nonempty prefixes of a path, shortest first. -/
def inits1 : FPath → List FPath
  | [] => []
  | a :: as => [a] :: (inits1 as).map (fun q => a :: q)

/-- Models one step of `std::fs::create_dir_all`: an existing directory is
left alone, a missing entry becomes a directory, an existing file is an
error. -/
def createDir1 (σ : FS) (p : FPath) : RRes Unit × FS :=
  match fsFind σ p with
  | some .dir => (.ok (), σ)
  | some (.file _) => (.err "File exists", σ)
  | none => (.ok (), fsSet σ p .dir)

/-- The worker of `createDirAll`: create each prefix in turn, keeping the
directories already created when a later step fails. -/
def createDirAllGo (σ : FS) : List FPath → RRes Unit × FS
  | [] => (.ok (), σ)
  | q :: qs =>
    match createDir1 σ q with
    | (.ok _, σ') => createDirAllGo σ' qs
    | r => r

/-- Models `std::fs::create_dir_all`: creates the directory at `p` together
with every missing ancestor component; fails on an empty path or when some
component on the way is an existing file. -/
def createDirAll (σ : FS) (p : FPath) : RRes Unit × FS :=
  match p with
  | [] => (.err "cannot create directory from an empty path", σ)
  | _ => createDirAllGo σ (inits1 p)

/-- Models `std::fs::File::create`: truncating create of a file; requires a
nonempty path whose parent exists as a directory (the filesystem root `[]`
always exists) and which is not itself an existing directory. -/
def fileCreate (σ : FS) (p : FPath) : RRes Unit × FS :=
  match p with
  | [] => (.err "cannot create a file at an empty path", σ)
  | _ =>
    if p.dropLast = [] ∨ fsFind σ p.dropLast = some .dir then
      match fsFind σ p with
      | some .dir => (.err "Is a directory", σ)
      | _ => (.ok (), fsSet σ p (.file []))
    else (.err "No such file or directory", σ)

/-- Models `std::fs::copy src dst`: reads the file at `src` and writes its
contents over the (just-created) file at `dst`, returning the byte count;
fails when `src` is not an existing file or `dst` is not writable. -/
def fsCopy (σ : FS) (src dst : FPath) : RRes Nat × FS :=
  match fsFind σ src with
  | some (.file c) =>
    match dst with
    | [] => (.err "cannot copy to an empty path", σ)
    | _ =>
      if dst.dropLast = [] ∨ fsFind σ dst.dropLast = some .dir ∨ (fsFind σ dst).isSome then
        match fsFind σ dst with
        | some .dir => (.err "Is a directory", σ)
        | _ => (.ok c.length, fsSet σ dst (.file c))
      else (.err "No such file or directory", σ)
  | _ => (.err "No such file or directory", σ)

/-- Sequence two stateful fallible computations, propagating `Err`, panics and
exits together with the state at the point of failure. -/
def bindS {α β : Type} (x : RRes α × FS) (f : α → FS → RRes β × FS) : RRes β × FS :=
  match x with
  | (.ok a, σ) => f a σ
  | (.err m, σ) => (.err m, σ)
  | (.panicked m, σ) => (.panicked m, σ)
  | (.exited c, σ) => (.exited c, σ)

/-- The target-path wrapper of `bifrost_path.rs`. -/
structure BifrostPath where
  path : FPath
deriving DecidableEq, Repr

/-- Models `workingdir::_load_top_level_dir`: strips the working directory's
parent from the popped entry's path and creates the corresponding directory
under the target; when the prefix cannot be stripped, fails with the
destination-target error. -/
def loadTopLevelDir (parent : FPath) (fromE : DirEntryExt) (tgt : BifrostPath)
    (σ : FS) : RRes Unit × FS :=
  match stripPrefix parent fromE.path with
  | some suffix => createDirAll σ (tgt.path ++ suffix)
  | none =>
    (.err "error: `workingdir::_load_top_level_dir` failed to construct destination target", σ)

/-- Models `workingdir::_load_dir`: like `loadTopLevelDir` but a failed
prefix strip silently skips the entry. -/
def loadDir (parent : FPath) (fromE : DirEntryExt) (tgt : BifrostPath)
    (σ : FS) : RRes Unit × FS :=
  match stripPrefix parent fromE.path with
  | some suffix => createDirAll σ (tgt.path ++ suffix)
  | none => (.ok (), σ)

/-- The `while let Some(from) = wd.dirs_as_mut().pop()` loop of `_load`,
fuelled by the number of heap elements (each pop removes one). -/
def loadDirsGo (parent : FPath) (tgt : BifrostPath) :
    Nat → List DirEntryExt → FS → RRes Unit × FS
  | 0, _, σ => (.ok (), σ)
  | fuel + 1, h, σ =>
    match heapPop h with
    | none => (.ok (), σ)
    | some (fromE, rest) =>
      bindS (loadDir parent fromE tgt σ) (fun _ σ' => loadDirsGo parent tgt fuel rest σ')

/-- Models the loop of `workingdir::_load_files`: for each file whose path has
the parent as a prefix, create the target file (a failure here aborts with
`?`), then copy the bytes — a failed `fs::copy` is silently skipped and
contributes nothing to the byte total. -/
def loadFilesGo (parent : FPath) (tgt : BifrostPath) :
    List FPath → FS → RRes Nat × FS
  | [], σ => (.ok 0, σ)
  | e :: es, σ =>
    match stripPrefix parent e with
    | none => loadFilesGo parent tgt es σ
    | some suffix =>
      bindS (fileCreate σ (tgt.path ++ suffix)) (fun _ σ₁ =>
        match fsCopy σ₁ e (tgt.path ++ suffix) with
        | (.ok n, σ₂) =>
          bindS (loadFilesGo parent tgt es σ₂) (fun m σ₃ => (.ok (n + m), σ₃))
        | (_, σ₂) => loadFilesGo parent tgt es σ₂)

/-- Models `workingdir::_load_files`. -/
def load_files (parent : FPath) (wd : WorkingDir) (tgt : BifrostPath)
    (σ : FS) : RRes Nat × FS :=
  loadFilesGo parent tgt wd.files σ

/-- Models `workingdir::_load`: unwrap the parent (panicking when `None` or
not convertible `to_str`), pop the top-level directory and create it, drain
the remaining directories, and finally load the files; when there are no
directories at all, create the bare target path instead. -/
def _load (wd : WorkingDir) (tgt : BifrostPath) (σ : FS) : RRes Nat × FS :=
  match wd.parent with
  | none => (.panicked ("BUG: `WorkingDir::parent` should not be `None` here"), σ)
  | some pb =>
    if allUtf8 pb then
      match heapPop wd.dirs with
      | some (fromE, rest) =>
        bindS (loadTopLevelDir pb fromE tgt σ) (fun _ σ₁ =>
          bindS (loadDirsGo pb tgt rest.length rest σ₁) (fun _ σ₂ =>
            load_files pb wd tgt σ₂))
      | none =>
        bindS (createDirAll σ tgt.path) (fun _ σ₁ => load_files pb wd tgt σ₁)
    else
      (.panicked
        ("BUG: `bifrost_load::_load` failed to convert `WorkingDir::parent` `PathBuf` `to_str`"), σ)

/-- The uniform operation result record (`util::OperationInfo`). -/
structure OperationInfo where
  name : String
  bytes : Option Nat
  text : Option (List Nat)
deriving DecidableEq, Repr

/-- Models `workingdir::try_load`: run `_load` and fail with the
incomplete-load error when the number of loaded bytes differs from the byte
count recorded by the walk. -/
def try_load (wd : WorkingDir) (tgt : BifrostPath) (σ : FS) :
    RRes OperationInfo × FS :=
  bindS (_load wd tgt σ) (fun bytes σ' =>
    if bytes ≠ wd.size then
      (.err "error: `workingdir::try_load` failed to load entire `WorkingDir`", σ')
    else
      (.ok { name := "default", bytes := some bytes, text := none }, σ'))

/-- Models `WorkingDir::load`. -/
def WorkingDir.load (wd : WorkingDir) (bifrost_path : BifrostPath) (σ : FS) :
    RRes OperationInfo × FS :=
  try_load wd bifrost_path σ

/-- The blacklist of `BifrostPath::check` in `bifrost_path.rs`:
`DOT_BIFROST`, `CONTAINER`, `BIFROST_CONTAINER`, the config-file name, and
`"tmp"`. -/
def black_list : List String := [".bifrost", "container", "bifrost", ".bifrost_config", "tmp"]

/-- Models `BifrostPath::check`: an absent name and a name equal to a
blacklisted entry are rejected with `bail!`; every other name passes. -/
def BifrostPath.check (proposed_name : Option String) : RRes Unit :=
  match proposed_name with
  | some name =>
    if black_list.any (fun b => b = name) then
      .err "error: proposed path contains blacklisted name(s)"
    else
      .ok ()
  | none => .err "error: proposed path cannot be empty or `None`"

/-- The candidate target path built identically in `BifrostPath::new` and
`BifrostPath::from_existing`:
`home_path.join(DOT_BIFROST).join(CONTAINER).join(BIFROST_CONTAINER).join(name)`. -/
def candidatePath (home_path : FPath) (name : String) : FPath :=
  home_path ++ [.utf8 ".bifrost", .utf8 "container", .utf8 "bifrost", .utf8 name]

/-- Models `BifrostPath::new` (create-mode guard): check the name against the
blacklist (`bail!` on failure), build the candidate path, and — when
`fs::metadata` succeeds on it, i.e. an entry exists there — print to stderr
and `process::exit(1)`; otherwise return the not-yet-materialized path. -/
def BifrostPath.new (home_path : FPath) (name : Option String) (σ : FS) :
    RRes BifrostPath :=
  match BifrostPath.check name with
  | .err m => .err m
  | _ =>
    match name with
    | none => .panicked ("BUG: `WorkSpace::name` should not be `None` here")
    | some n =>
      if (fsFind σ (candidatePath home_path n)).isSome then
        .exited 1
      else
        .ok ⟨candidatePath home_path n⟩

/-- Models `BifrostPath::from_existing`: build the candidate path and `bail!`
when `fs::metadata` fails for it (no entry exists there); otherwise return
it. -/
def BifrostPath.from_existing (home_path : FPath) (name : Option String) (σ : FS) :
    RRes BifrostPath :=
  match name with
  | none => .panicked ("BUG: `WorkSpace::name` should not be `None` here")
  | some n =>
    if (fsFind σ (candidatePath home_path n)).isSome then
      .ok ⟨candidatePath home_path n⟩
    else
      .err "error: `BifrostPath::from_existing` cannot construct an existing path from `WorkSpace::name`"

/-- Models `BifrostPath::try_from_existing`: returns `from_existing`'s result
when that is `Ok`; a panic propagates; but on `Err` it falls through the
`[TODO]` branch and returns `Ok` with an *empty* `PathBuf`. -/
def BifrostPath.try_from_existing (home_path : FPath) (name : Option String) (σ : FS) :
    RRes BifrostPath :=
  match BifrostPath.from_existing home_path name σ with
  | .ok bifrost_path => .ok bifrost_path
  | .panicked m => .panicked m
  | .exited c => .exited c
  | .err _ => .ok ⟨[]⟩

/-- The fields of `WorkSpace` (with its `Config`) that the claims need: the
realm name, the resolved home path, the contents, and the recorded size. -/
structure WorkSpaceM where
  name : Option String
  home_path : FPath
  contents : Option (List WorkingDir)
  size : Nat
deriving DecidableEq, Repr

/-- The `LoadSpace` structure of `workspace.rs`. -/
structure LoadSpace where
  workspace : WorkSpaceM
  target : Option BifrostPath
deriving DecidableEq, Repr

/-- The `for wd in contents` loop of `LoadSpace::load`: load each
`WorkingDir` to the target (errors propagate via `?`) and add up the `bytes`
fields of the returned records (`if let Some(n) = info.bytes`). -/
def loadContents (p : BifrostPath) : List WorkingDir → FS → RRes Nat × FS
  | [], σ => (.ok 0, σ)
  | wd :: wds, σ =>
    bindS (WorkingDir.load wd p σ) (fun info σ' =>
      bindS (loadContents p wds σ') (fun m σ'' =>
        (.ok ((info.bytes.getD 0) + m), σ'')))

/-- Models `LoadSpace::load`: unwrap the prepared target (panicking when it is
`None`), load every `WorkingDir` of the contents, fail with the
could-not-load-all-contents error when the byte total differs from the
workspace's recorded size, and otherwise return the record with the byte
total and the workspace name (panicking when the name is `None`). -/
def LoadSpace.load (ls : LoadSpace) (σ : FS) : RRes OperationInfo × FS :=
  match ls.target with
  | none => (.panicked ("BUG: `BifrostPath` should not be `None` here"), σ)
  | some path =>
    bindS
      (match ls.workspace.contents with
       | some contents => loadContents path contents σ
       | none => (.ok 0, σ))
      (fun nbytes σ' =>
        if nbytes ≠ ls.workspace.size then
          (.err "error: could not `load` all contents", σ')
        else
          match ls.workspace.name with
          | none => (.panicked ("BUG: `LoadSpace::load` failed to unwrap `WorkSpace::name`"), σ')
          | some name => (.ok { name := name, bytes := some nbytes, text := none }, σ'))

/-- Models `BifrostOperable::prep` for `LoadSpace`: fails when a target was
already prepared, otherwise validates via `BifrostPath::new`. -/
def LoadSpace.prep (ls : LoadSpace) (σ : FS) : RRes LoadSpace :=
  match ls.target with
  | some _ => .err "error: a `BifrostPath` has already been prepared for this `LoadSpace`"
  | none =>
    match BifrostPath.new ls.workspace.home_path ls.workspace.name σ with
    | .ok p => .ok { ls with target := some p }
    | .err m => .err m
    | .panicked m => .panicked m
    | .exited c => .exited c

/-- Modelled from the spec: `hofund::remove_dir_all` is called by
`UnloadSpace::unload` but its definition is not among the provided sources
(`hofund.rs` defines only `write`, `append`, `remove_file` and `read`).  Per
the spec — unload "recursively delete[s] the target directory tree" — it
removes the entry at the given path together with everything beneath it, and
fails (like `std::fs::remove_dir_all`) when the path is empty or no entry
exists there. -/
def removeDirAll (σ : FS) (p : FPath) : RRes Unit × FS :=
  match p with
  | [] => (.err "error: cannot remove an empty path", σ)
  | _ =>
    match fsFind σ p with
    | none => (.err "error: no such file or directory", σ)
    | some _ => (.ok (), σ.filter (fun kv => (stripPrefix p kv.1).isNone))

/-- The `UnloadSpace` structure of `workspace.rs`. -/
structure UnloadSpace where
  workspace : WorkSpaceM
  target : Option BifrostPath
deriving DecidableEq, Repr

/-- Models `BifrostOperable::prep` for `UnloadSpace`: sets the target from
`BifrostPath::try_from_existing`, propagating failures via `?`. -/
def UnloadSpace.prep (u : UnloadSpace) (σ : FS) : RRes UnloadSpace :=
  match BifrostPath.try_from_existing u.workspace.home_path u.workspace.name σ with
  | .ok path => .ok { u with target := some path }
  | .err m => .err m
  | .panicked m => .panicked m
  | .exited c => .exited c

/-- Models `BifrostOperable::build` for `UnloadSpace`: a no-op. -/
def UnloadSpace.build (u : UnloadSpace) : RRes UnloadSpace := .ok u

/-- Models `UnloadSpace::unload`: when a target is set, remove its directory
tree — on failure print a message and `process::exit(1)`; when no target is
set, print a message and `process::exit(1)`. -/
def UnloadSpace.unload (u : UnloadSpace) (σ : FS) : RRes OperationInfo × FS :=
  match u.target with
  | some target =>
    match removeDirAll σ target.path with
    | (.ok _, σ') =>
      match u.workspace.name with
      | some n => (.ok { name := n, bytes := none, text := none }, σ')
      | none => (.panicked ("BUG: `UnloadSpace::unload` expected `name` to be `Some`"), σ')
    | (.err _, σ') => (.exited 1, σ')
    | (.panicked m, σ') => (.panicked m, σ')
    | (.exited c, σ') => (.exited c, σ')
  | none => (.exited 1, σ)

/-- Models `BifrostOperable::exec` for `UnloadSpace`. -/
def UnloadSpace.exec (u : UnloadSpace) (σ : FS) : RRes OperationInfo × FS :=
  UnloadSpace.unload u σ

/-- Models `bifrost_path::get_path_or_empty`: the target's underlying path,
or the empty `PathBuf` when there is none. -/
def get_path_or_empty (maybe_path : Option BifrostPath) : FPath :=
  match maybe_path with
  | some b => b.path
  | none => []

/-- Models the `unload` driver `ops::bifrost_unload::unload` (the entry point
the `unload` subcommand runs): prepare the `UnloadSpace` (propagating
failures via `?`), take `get_path_or_empty` of the prepared target, and probe
it with `fs::metadata` — the probe fails when the path is the empty
`PathBuf` (`fs::metadata` always errors on an empty path) or when no entry
exists at it, in which case the driver prints a failure message and
`process::exit(1)`s before `build` and `exec` ever run; otherwise it proceeds
to `build` and `exec`. -/
def bifrost_unload.unload (u : UnloadSpace) (σ : FS) : RRes OperationInfo × FS :=
  match UnloadSpace.prep u σ with
  | .err m => (.err m, σ)
  | .panicked m => (.panicked m, σ)
  | .exited c => (.exited c, σ)
  | .ok ws =>
    let path := get_path_or_empty ws.target
    if path = [] ∨ fsFind σ path = none then
      (.exited 1, σ)
    else
      match UnloadSpace.build ws with
      | .ok ws' => UnloadSpace.exec ws' σ
      | .err m => (.err m, σ)
      | .panicked m => (.panicked m, σ)
      | .exited c => (.exited c, σ)

/-! ## Lemmas about the directory heap (claim C2) -/

theorem heapPop_eq_none {h : List DirEntryExt} : heapPop h = none ↔ h = [] := by
  constructor
  · intro he
    cases h with
    | nil => rfl
    | cons e es =>
      simp only [heapPop] at he
      rcases hp : heapPop es with _ | ⟨m, rest⟩ <;> rw [hp] at he <;> simp at he
      split at he <;> simp at he
  · rintro rfl; rfl

theorem heapPop_perm_min {h : List DirEntryExt} {e : DirEntryExt} {r : List DirEntryExt}
    (hp : heapPop h = some (e, r)) :
    h.Perm (e :: r) ∧ ∀ x ∈ r, e.depth ≤ x.depth := by
  induction h generalizing e r with
  | nil => simp [heapPop] at hp
  | cons a as ih =>
    simp only [heapPop] at hp
    rcases hq : heapPop as with _ | ⟨m, rest⟩
    · rw [hq] at hp
      have : as = [] := heapPop_eq_none.mp hq
      subst this
      simp at hp
      obtain ⟨rfl, rfl⟩ := hp
      simp
    · rw [hq] at hp
      obtain ⟨hperm, hmin⟩ := ih hq
      by_cases hlt : DirEntryExt.cmp a m = Ordering.lt
      · simp [hlt] at hp
        obtain ⟨rfl, rfl⟩ := hp
        have hma : m.depth < a.depth := Nat.compare_eq_lt.mp hlt
        constructor
        · exact (hperm.cons a).trans (List.Perm.swap m a rest)
        · intro x hx
          rcases List.mem_cons.mp hx with rfl | hx
          · exact Nat.le_of_lt hma
          · exact hmin x hx
      · simp [hlt] at hp
        obtain ⟨rfl, rfl⟩ := hp
        have hle : a.depth ≤ m.depth := by
          rcases Nat.lt_trichotomy m.depth a.depth with hl | hl | hl
          · exact absurd (Nat.compare_eq_lt.mpr hl) hlt
          · exact Nat.le_of_eq hl.symm
          · exact Nat.le_of_lt hl
        refine ⟨List.Perm.refl _, ?_⟩
        intro x hx
        have hx' : x ∈ m :: rest := (hperm.mem_iff).mp hx
        rcases List.mem_cons.mp hx' with rfl | hx'
        · exact hle
        · exact Nat.le_trans hle (hmin x hx')

theorem drainAux_perm_sorted :
    ∀ (fuel : Nat) (h : List DirEntryExt), h.length ≤ fuel →
      (drainAux fuel h).Perm h ∧
        List.Sorted (fun a b => a.depth ≤ b.depth) (drainAux fuel h) := by
  intro fuel
  induction fuel with
  | zero =>
    intro h hle
    have : h = [] := List.eq_nil_of_length_eq_zero (Nat.le_zero.mp hle)
    subst this
    simp [drainAux]
  | succ n ih =>
    intro h hle
    rcases hp : heapPop h with _ | ⟨e, r⟩
    · have : h = [] := heapPop_eq_none.mp hp
      subst this
      simp [drainAux, heapPop]
    · obtain ⟨hperm, hmin⟩ := heapPop_perm_min hp
      have hlen : r.length ≤ n := by
        have := hperm.length_eq
        simp at this
        omega
      obtain ⟨ihp, ihs⟩ := ih r hlen
      constructor
      · simpa [drainAux, hp] using ((ihp.cons e).trans hperm.symm)
      · simp only [drainAux, hp]
        rw [List.sorted_cons]
        refine ⟨?_, ihs⟩
        intro b hb
        exact hmin b (ihp.mem_iff.mp hb)

/-- C2: draining the directory collection — repeatedly popping the heap of
`DirEntryExt`s whose `Ord` is inverted so a pop returns a least-depth entry,
exactly as the load loop in `_load` consumes it — yields every stored
directory entry (the drained sequence is a permutation of the heap's
contents) in non-decreasing depth order; consequently an entry at a strictly
smaller depth, such as a parent directory, is always processed before any
deeper entry, so the materializing load never attempts to create a child
directory before its parent. -/
theorem claim_C2_drain_depth_sorted (h : List DirEntryExt) :
    (drainHeap h).Perm h ∧
      List.Sorted (fun a b => a.depth ≤ b.depth) (drainHeap h) :=
  drainAux_perm_sorted h.length h (Nat.le_refl _)

/-! ## The path-guard name check (claims C5, C4, C6) -/

/-- C5 counterexample: the claim states that the name check rejects any name
beginning with `.` and the empty name, but `BifrostPath::check` compares
against the blacklist by string equality only, so the dot-name `".foo"` and
the empty string `""` both pass the check. -/
theorem claim_C5_counterexample :
    BifrostPath.check (some ".foo") = .ok () ∧ BifrostPath.check (some "") = .ok () := by
  constructor <;> rfl

/-- C5 (amended): the name check fails exactly on the absent name and on the
five names equal to a blacklist entry — `.bifrost`, `container`, `bifrost`,
the config-file name `.bifrost_config`, and `tmp`; every other name,
including the empty string and other names beginning with `.`, passes. -/
theorem claim_C5_check_blacklist (proposed_name : Option String) :
    (∃ m, BifrostPath.check proposed_name = .err m) ↔
      (proposed_name = none ∨ ∃ s, proposed_name = some s ∧ s ∈ black_list) := by
  cases proposed_name with
  | none => simp [BifrostPath.check]
  | some s =>
    by_cases hs : s ∈ black_list
    · have hb : black_list.any (fun b => b = s) = true := by
        simp only [List.any_eq_true, decide_eq_true_eq]
        exact ⟨s, hs, rfl⟩
      simp [BifrostPath.check, hb, hs]
    · have hb : black_list.any (fun b => b = s) = false := by
        simp only [List.any_eq_false, decide_eq_true_eq]
        intro b hbmem hbs
        exact hs (hbs ▸ hbmem)
      simp [BifrostPath.check, hb, hs]

/-- C4 counterexample: with an empty filesystem no entry exists at the
candidate path for realm `"realm"`, yet `BifrostPath::try_from_existing` does
not fail with `NotFound` — the inner `from_existing` error is swallowed and
the call succeeds, returning an empty path. -/
theorem claim_C4_counterexample :
    fsFind ([] : FS) (candidatePath [.utf8 "home"] "realm") = none ∧
      BifrostPath.try_from_existing [.utf8 "home"] (some "realm") ([] : FS) =
        .ok ⟨[]⟩ := by
  constructor <;> rfl

/-- C4 (amended): the create-mode guard `BifrostPath::new` succeeds — with
the candidate path `<home>/.bifrost/container/bifrost/<name>` — exactly when
the name passes the blacklist check and no filesystem entry exists at the
candidate path (an existing entry makes it print to stderr and exit, a
blacklisted name makes it fail).  The inner `BifrostPath::from_existing`
succeeds exactly when an entry does exist at the candidate path.  But the
existing-mode guard actually used by the operations,
`BifrostPath::try_from_existing`, never fails for a present name: it returns
the candidate path when an entry exists there and an empty sentinel path
otherwise. -/
theorem claim_C4_guard_characterization (home_path : FPath) (s : String) (σ : FS) :
    ((∃ p, BifrostPath.new home_path (some s) σ = .ok p) ↔
        (s ∉ black_list ∧ fsFind σ (candidatePath home_path s) = none)) ∧
      (∀ p, BifrostPath.new home_path (some s) σ = .ok p →
        p = ⟨candidatePath home_path s⟩) ∧
      ((∃ p, BifrostPath.from_existing home_path (some s) σ = .ok p) ↔
        (fsFind σ (candidatePath home_path s)).isSome) ∧
      BifrostPath.try_from_existing home_path (some s) σ =
        .ok ⟨if (fsFind σ (candidatePath home_path s)).isSome
              then candidatePath home_path s else []⟩ := by
  refine ⟨⟨?_, ?_⟩, ?_, ⟨?_, ?_⟩, ?_⟩
  · rintro ⟨p, hp⟩
    by_cases hs : s ∈ black_list
    · have hb : black_list.any (fun b => b = s) = true := by
        simp only [List.any_eq_true, decide_eq_true_eq]
        exact ⟨s, hs, rfl⟩
      simp [BifrostPath.new, BifrostPath.check, hb] at hp
    · have hb : black_list.any (fun b => b = s) = false := by
        simp only [List.any_eq_false, decide_eq_true_eq]
        intro b hbmem hbs
        exact hs (hbs ▸ hbmem)
      cases hmem : fsFind σ (candidatePath home_path s) with
      | some v => simp [BifrostPath.new, BifrostPath.check, hb, hmem] at hp
      | none => exact ⟨hs, rfl⟩
  · rintro ⟨hs, hnone⟩
    have hb : black_list.any (fun b => b = s) = false := by
      simp only [List.any_eq_false, decide_eq_true_eq]
      intro b hbmem hbs
      exact hs (hbs ▸ hbmem)
    exact ⟨⟨candidatePath home_path s⟩, by simp [BifrostPath.new, BifrostPath.check, hb, hnone]⟩
  · intro p hp
    by_cases hs : s ∈ black_list
    · have hb : black_list.any (fun b => b = s) = true := by
        simp only [List.any_eq_true, decide_eq_true_eq]
        exact ⟨s, hs, rfl⟩
      simp [BifrostPath.new, BifrostPath.check, hb] at hp
    · have hb : black_list.any (fun b => b = s) = false := by
        simp only [List.any_eq_false, decide_eq_true_eq]
        intro b hbmem hbs
        exact hs (hbs ▸ hbmem)
      cases hmem : fsFind σ (candidatePath home_path s) with
      | some v => simp [BifrostPath.new, BifrostPath.check, hb, hmem] at hp
      | none =>
        simp [BifrostPath.new, BifrostPath.check, hb, hmem] at hp
        exact hp.symm
  · rintro ⟨p, hp⟩
    cases hmem : fsFind σ (candidatePath home_path s) with
    | some v => simp [hmem]
    | none => simp [BifrostPath.from_existing, hmem] at hp
  · intro hmem
    refine ⟨⟨candidatePath home_path s⟩, ?_⟩
    simp [BifrostPath.from_existing, hmem]
  · cases hmem : fsFind σ (candidatePath home_path s) with
    | some v => simp [BifrostPath.try_from_existing, BifrostPath.from_existing, hmem]
    | none => simp [BifrostPath.try_from_existing, BifrostPath.from_existing, hmem]

/-- A concrete `UnloadSpace` for a realm named `"realm"` that was never
loaded (the filesystem below is empty, so no entry exists at its candidate
target path). -/
def unloadNeverLoaded : UnloadSpace :=
  { workspace :=
      { name := some "realm", home_path := [.utf8 "home"], contents := none, size := 0 }
    target := none }

/-- C6 counterexample: `unload` invoked on a realm name that was never loaded
— the filesystem is empty, so no entry exists at the candidate path — does
*not* make `prep()` fail with `NotFound`: `prep()` succeeds, storing the empty
sentinel path returned by `BifrostPath::try_from_existing`. -/
theorem claim_C6_counterexample :
    fsFind ([] : FS) (candidatePath [.utf8 "home"] "realm") = none ∧
      UnloadSpace.prep unloadNeverLoaded ([] : FS) =
        .ok { unloadNeverLoaded with target := some ⟨[]⟩ } := by
  constructor <;> rfl

/-- C6 (amended): for an unload whose realm name was never loaded (no entry
at the candidate target path), `prep()` does *not* fail with `NotFound` — it
succeeds with the empty sentinel path.  The unload driver
(`ops::bifrost_unload::unload`) then probes the sentinel with `fs::metadata`
immediately after `prep()`; the probe fails for the empty path, so the
process exits with status 1 *before* `build()` and `exec()` run —
`hofund::remove_dir_all` is never reached, and the filesystem is returned
exactly as it was, so no deletion of any filesystem entry occurs. -/
theorem claim_C6_unload_never_loaded (ws : WorkSpaceM) (σ : FS) (s : String)
    (hname : ws.name = some s)
    (hmiss : fsFind σ (candidatePath ws.home_path s) = none) :
    UnloadSpace.prep ⟨ws, none⟩ σ = .ok ⟨ws, some ⟨[]⟩⟩ ∧
      bifrost_unload.unload ⟨ws, none⟩ σ = (.exited 1, σ) := by
  have hprep : UnloadSpace.prep ⟨ws, none⟩ σ = .ok ⟨ws, some ⟨[]⟩⟩ := by
    simp [UnloadSpace.prep, BifrostPath.try_from_existing, BifrostPath.from_existing,
      hname, hmiss]
  refine ⟨hprep, ?_⟩
  unfold bifrost_unload.unload
  rw [hprep]
  show (if get_path_or_empty (some ⟨[]⟩) = [] ∨
      fsFind σ (get_path_or_empty (some ⟨[]⟩)) = none then ((.exited 1 : RRes OperationInfo), σ)
    else _) = ((.exited 1 : RRes OperationInfo), σ)
  simp [get_path_or_empty]

/-- C6 witness: the amended statement at the concrete never-loaded realm:
prep succeeds with the sentinel and the driver exits 1 before build/exec,
leaving the (empty) filesystem untouched. -/
theorem claim_C6_witness :
    unloadNeverLoaded.workspace.name = some "realm" ∧
      fsFind ([] : FS) (candidatePath unloadNeverLoaded.workspace.home_path "realm") = none ∧
      (UnloadSpace.prep ⟨unloadNeverLoaded.workspace, none⟩ ([] : FS) =
          .ok ⟨unloadNeverLoaded.workspace, some ⟨[]⟩⟩ ∧
        bifrost_unload.unload ⟨unloadNeverLoaded.workspace, none⟩ ([] : FS) =
          (.exited 1, ([] : FS))) :=
  ⟨by decide, by decide,
    claim_C6_unload_never_loaded unloadNeverLoaded.workspace [] "realm"
      (by decide) (by decide)⟩

/-! ## The walker and non-UTF-8 names (claim C10) -/

/-- C10: the ignore filter applies only to entries whose file name is valid
UTF-8.  First conjunct: whenever `to_str` fails on a name, `ignorable`
returns `false`, whatever the ignore-set.  Second and third conjuncts: such
an entry is therefore never pruned — a directory with a non-UTF-8 name is
descended into and its entry appears in the walk's directory output, and a
file with a non-UTF-8 name (whose size stat succeeds) is recorded in the walk's
file output with its size counted. -/
theorem claim_C10_non_utf8_never_pruned :
    (∀ (L : List String) (n : OsName), OsName.toStr n = none → ignorable n L = false) ∧
      (∀ (L : List String) (bs : List Nat) (cs : List FTree) (pp : FPath) (d : Nat)
          (ds : List DirEntryExt) (fs : List FPath) (sz : Nat),
        walkVisit L (.dir (.raw bs) cs) pp d = .ok (ds, fs, sz) →
          ⟨pp ++ [.raw bs], d⟩ ∈ ds) ∧
      (∀ (L : List String) (bs : List Nat) (c : List Nat) (pp : FPath) (d : Nat),
        walkVisit L (.file (.raw bs) c true) pp d =
          .ok ([], [pp ++ [.raw bs]], c.length)) := by
  refine ⟨?_, ?_, ?_⟩
  · intro L n hn
    cases n with
    | utf8 s => simp [OsName.toStr] at hn
    | raw bs => rfl
  · intro L bs cs pp d ds fs sz hw
    have hig : ignorable (.raw bs) L = false := rfl
    simp only [walkVisit, hig, Bool.false_eq_true, if_false] at hw
    rcases hc : walkChildren L cs (pp ++ [OsName.raw bs]) (d + 1) with ⟨ds', fs', sz'⟩ | m | m | c'
    all_goals rw [hc] at hw
    · simp at hw
      obtain ⟨h1, -, -⟩ := hw
      rw [← h1]
      exact List.mem_cons_self _ _
    all_goals simp at hw
  · intro L bs c pp d
    rfl

/-! ## Walker failure policy (claim C7) -/

mutual
/-- The tree with every `errEntry` child removed (the root itself, when it is
an `errEntry`, contributes nothing to a walk either way). -/
def dropErrs : FTree → FTree
  | .dir n cs => .dir n (dropErrsL cs)
  | .file n c stOk => .file n c stOk
  | .errEntry n => .errEntry n

/-- `dropErrs` on a list of children: `errEntry` children are removed and the
rest are cleaned recursively. -/
def dropErrsL : List FTree → List FTree
  | [] => []
  | .errEntry _ :: ts => dropErrsL ts
  | t :: ts => dropErrs t :: dropErrsL ts
end

mutual
/-- Every `file` node in the tree has a succeeding size stat. -/
def statsOk : FTree → Bool
  | .dir _ cs => statsOkL cs
  | .file _ _ stOk => stOk
  | .errEntry _ => true

/-- `statsOk` on a list of children. -/
def statsOkL : List FTree → Bool
  | [] => true
  | t :: ts => statsOk t && statsOkL ts
end

mutual
theorem walkVisit_dropErrs (L : List String) :
    ∀ (t : FTree) (pp : FPath) (d : Nat),
      walkVisit L (dropErrs t) pp d = walkVisit L t pp d := by
  intro t pp d
  match t with
  | .errEntry n => rfl
  | .file n c st => rfl
  | .dir n cs =>
    have h := walkChildren_dropErrsL L cs (pp ++ [n]) (d + 1)
    simp only [dropErrs, walkVisit, h]

theorem walkChildren_dropErrsL (L : List String) :
    ∀ (ts : List FTree) (pp : FPath) (d : Nat),
      walkChildren L (dropErrsL ts) pp d = walkChildren L ts pp d := by
  intro ts pp d
  match ts with
  | [] => rfl
  | .errEntry n :: ts =>
    have h := walkChildren_dropErrsL L ts pp d
    simp only [dropErrsL] at h ⊢
    rw [h]
    show walkChildren L ts pp d = walkChildren L (.errEntry n :: ts) pp d
    simp only [walkChildren, walkVisit]
    cases hc : walkChildren L ts pp d with
    | ok acc =>
      obtain ⟨ds, fs, sz⟩ := acc
      simp
    | err m => rfl
    | panicked m => rfl
    | exited c => rfl
  | .dir n cs :: ts =>
    have h1 := walkVisit_dropErrs L (.dir n cs) pp d
    have h2 := walkChildren_dropErrsL L ts pp d
    simp only [dropErrsL, walkChildren, h1, h2]
  | .file n c st :: ts =>
    have h2 := walkChildren_dropErrsL L ts pp d
    simp only [dropErrsL, walkChildren, dropErrs, h2]
end

mutual
theorem walkVisit_statsOk (L : List String) :
    ∀ (t : FTree) (pp : FPath) (d : Nat), statsOk t = true →
      ∃ acc, walkVisit L t pp d = .ok acc := by
  intro t pp d hst
  match t with
  | .errEntry n => exact ⟨([], [], 0), rfl⟩
  | .file n c st =>
    by_cases hig : ignorable n L = true
    · exact ⟨([], [], 0), by simp [walkVisit, hig]⟩
    · have hst' : st = true := hst
      exact ⟨([], [pp ++ [n]], c.length), by
        simp [walkVisit, hig, hst']⟩
  | .dir n cs =>
    by_cases hig : ignorable n L = true
    · exact ⟨([], [], 0), by simp [walkVisit, hig]⟩
    · obtain ⟨⟨ds, fs, sz⟩, hacc⟩ := walkChildren_statsOkL L cs (pp ++ [n]) (d + 1) hst
      exact ⟨(⟨pp ++ [n], d⟩ :: ds, fs, sz), by simp [walkVisit, hig, hacc]⟩

theorem walkChildren_statsOkL (L : List String) :
    ∀ (ts : List FTree) (pp : FPath) (d : Nat), statsOkL ts = true →
      ∃ acc, walkChildren L ts pp d = .ok acc := by
  intro ts pp d hst
  match ts with
  | [] => exact ⟨([], [], 0), rfl⟩
  | t :: ts =>
    have hst1 : statsOk t = true := by
      have := hst
      simp [statsOkL, Bool.and_eq_true] at this
      exact this.1
    have hst2 : statsOkL ts = true := by
      have := hst
      simp [statsOkL, Bool.and_eq_true] at this
      exact this.2
    obtain ⟨⟨ds₁, fs₁, n₁⟩, h1⟩ := walkVisit_statsOk L t pp d hst1
    obtain ⟨⟨ds₂, fs₂, n₂⟩, h2⟩ := walkChildren_statsOkL L ts pp d hst2
    exact ⟨(ds₁ ++ ds₂, fs₁ ++ fs₂, n₁ + n₂), by simp [walkChildren, h1, h2]⟩
end

/-- C7 counterexample: a metadata failure on an individual entry *is* fatal to
the overall walk — in the tree `d/{f}` whose file `f` exists but whose size
stat fails, the walk panics (the `expect` on `fs::metadata` in
`WorkingDir::walk`) instead of skipping the entry and continuing. -/
theorem claim_C7_counterexample :
    (WorkingDir.new [.utf8 "d"]).walk (.dir (.utf8 "d") [.file (.utf8 "f") [1] false]) =
      .panicked "error: `WorkingDir::walk` failed to unwrap `fs::metadata`" := by
  decide

/-- C7 (amended): per-entry failures reported by the `walkdir` iterator itself
(entries yielded as `Err`) cause only those entries to be skipped — a walk of
a tree is exactly the walk of the same tree with all `Err` entries removed —
and they are never fatal: when every yielded file's size stat succeeds, the
walk returns `Ok` however many `Err` entries the tree contains.  However (see
the counterexample) a failure of the `fs::metadata` size read on a yielded
file entry panics the whole walk. -/
theorem claim_C7_iterator_errors_skipped :
    (∀ (L : List String) (t : FTree) (pp : FPath) (d : Nat),
        walkVisit L (dropErrs t) pp d = walkVisit L t pp d) ∧
      (∀ (L : List String) (t : FTree) (pp : FPath) (d : Nat), statsOk t = true →
        ∃ acc, walkVisit L t pp d = .ok acc) :=
  ⟨fun L t pp d => walkVisit_dropErrs L t pp d,
   fun L t pp d hst => walkVisit_statsOk L t pp d hst⟩

/-- C7 witness: a concrete tree containing an `Err` entry — the walk returns
`Ok`, the `Err` entry is skipped, and removing it changes nothing. -/
theorem claim_C7_witness :
    (walkVisit ["x"] (dropErrs (.dir (.utf8 "d") [.errEntry (.utf8 "e"),
        .file (.utf8 "f") [1, 2] true])) [] 0 =
      walkVisit ["x"] (.dir (.utf8 "d") [.errEntry (.utf8 "e"),
        .file (.utf8 "f") [1, 2] true]) [] 0) ∧
      (statsOk (.dir (.utf8 "d") [.errEntry (.utf8 "e"),
          .file (.utf8 "f") [1, 2] true]) = true ∧
        ∃ acc, walkVisit ["x"] (.dir (.utf8 "d") [.errEntry (.utf8 "e"),
          .file (.utf8 "f") [1, 2] true]) [] 0 = .ok acc) :=
  ⟨claim_C7_iterator_errors_skipped.1 ["x"] _ [] 0,
    by decide,
    claim_C7_iterator_errors_skipped.2 ["x"] _ [] 0 (by decide)⟩

/-! ## Pruning (claim C3) -/

/-- Every component of `q` below the base path `pp` — the entry's own name
(`r = q`) as well as the name of every intermediate directory on the way from
`pp` down to `q` — fails the `ignorable` test.  This is exactly "the entry's
name has no member of the ignore-set as a prefix, and the entry does not lie
beneath any pruned directory". -/
def cleanUnder (L : List String) (pp q : FPath) : Prop :=
  ∀ r m, pp <+: r → r <+: q → r ≠ pp → r.getLast? = some m → ignorable m L = false

theorem prefix_sandwich {pp r : FPath} {n : OsName}
    (h1 : pp <+: r) (h2 : r <+: pp ++ [n]) (h3 : r ≠ pp) : r = pp ++ [n] := by
  have hlen1 : pp.length ≤ r.length := h1.length_le
  rcases Nat.eq_or_lt_of_le hlen1 with heq | hlt
  · exact absurd (h1.eq_of_length heq).symm h3
  · have hlen2 : r.length ≤ (pp ++ [n]).length := h2.length_le
    refine h2.eq_of_length ?_
    simp only [List.length_append, List.length_singleton] at hlen2 ⊢
    omega

theorem cleanUnder_single {L : List String} {pp : FPath} {n : OsName}
    (hig : ignorable n L = false) : cleanUnder L pp (pp ++ [n]) := by
  intro r m h1 h2 h3 h4
  have hr : r = pp ++ [n] := prefix_sandwich h1 h2 h3
  subst hr
  rw [List.getLast?_concat] at h4
  cases h4
  exact hig

theorem cleanUnder_step {L : List String} {pp q : FPath} {n : OsName}
    (hig : ignorable n L = false) (hq : pp ++ [n] <+: q)
    (hcl : cleanUnder L (pp ++ [n]) q) : cleanUnder L pp q := by
  intro r m h1 h2 h3 h4
  by_cases hr : r = pp ++ [n]
  · subst hr
    rw [List.getLast?_concat] at h4
    cases h4
    exact hig
  · rcases List.prefix_or_prefix_of_prefix h2 hq with hc | hc
    · exact absurd (prefix_sandwich h1 hc h3) hr
    · exact hcl r m hc h2 hr h4

theorem prefix_snoc_ne {pp q : FPath} {n : OsName} (h : pp ++ [n] <+: q) : q ≠ pp := by
  intro hEq
  subst hEq
  have := h.length_le
  simp only [List.length_append, List.length_singleton] at this
  omega

mutual
theorem walkVisit_pruned (L : List String) :
    ∀ (t : FTree) (pp : FPath) (d : Nat) (ds : List DirEntryExt) (fs : List FPath) (sz : Nat),
      walkVisit L t pp d = .ok (ds, fs, sz) →
        (∀ e ∈ ds, pp <+: e.path ∧ e.path ≠ pp ∧ cleanUnder L pp e.path) ∧
          (∀ q ∈ fs, pp <+: q ∧ q ≠ pp ∧ cleanUnder L pp q) := by
  intro t pp d ds fs sz hw
  match t with
  | .errEntry n =>
    simp only [walkVisit] at hw
    simp at hw
    obtain ⟨rfl, rfl, -⟩ := hw
    simp
  | .file n c st =>
    by_cases hig : ignorable n L = true
    · simp [walkVisit, hig] at hw
      obtain ⟨rfl, rfl, -⟩ := hw
      simp
    · have higf : ignorable n L = false := Bool.not_eq_true _ ▸ (by simpa using hig)
      cases st with
      | false => simp [walkVisit, hig] at hw
      | true =>
        simp [walkVisit, hig] at hw
        obtain ⟨rfl, rfl, -⟩ := hw
        refine ⟨by simp, ?_⟩
        intro q hq
        rcases List.mem_singleton.mp hq with rfl
        exact ⟨List.prefix_append pp [n],
          prefix_snoc_ne (List.prefix_refl _), cleanUnder_single higf⟩
  | .dir n cs =>
    by_cases hig : ignorable n L = true
    · simp [walkVisit, hig] at hw
      obtain ⟨rfl, rfl, -⟩ := hw
      simp
    · have higf : ignorable n L = false := Bool.not_eq_true _ ▸ (by simpa using hig)
      simp only [walkVisit, hig, Bool.false_eq_true, if_false] at hw
      rcases hc : walkChildren L cs (pp ++ [n]) (d + 1) with ⟨ds', fs', sz'⟩ | m | m | c'
      all_goals rw [hc] at hw
      case _ =>
        simp at hw
        obtain ⟨hds, hfs, -⟩ := hw
        obtain ⟨ihd, ihf⟩ := walkChildren_pruned L cs (pp ++ [n]) (d + 1) ds' fs' sz' hc
        constructor
        · intro e he
          rw [← hds] at he
          rcases List.mem_cons.mp he with rfl | he'
          · exact ⟨List.prefix_append pp [n],
              prefix_snoc_ne (List.prefix_refl _), cleanUnder_single higf⟩
          · obtain ⟨hpre, -, hclean⟩ := ihd e he'
            exact ⟨(List.prefix_append pp [n]).trans hpre, prefix_snoc_ne hpre,
              cleanUnder_step higf hpre hclean⟩
        · intro q hq
          rw [← hfs] at hq
          obtain ⟨hpre, -, hclean⟩ := ihf q hq
          exact ⟨(List.prefix_append pp [n]).trans hpre, prefix_snoc_ne hpre,
            cleanUnder_step higf hpre hclean⟩
      all_goals simp at hw

theorem walkChildren_pruned (L : List String) :
    ∀ (ts : List FTree) (pp : FPath) (d : Nat) (ds : List DirEntryExt) (fs : List FPath)
      (sz : Nat),
      walkChildren L ts pp d = .ok (ds, fs, sz) →
        (∀ e ∈ ds, pp <+: e.path ∧ e.path ≠ pp ∧ cleanUnder L pp e.path) ∧
          (∀ q ∈ fs, pp <+: q ∧ q ≠ pp ∧ cleanUnder L pp q) := by
  intro ts pp d ds fs sz hw
  match ts with
  | [] =>
    simp only [walkChildren] at hw
    simp at hw
    obtain ⟨rfl, rfl, -⟩ := hw
    simp
  | t :: ts =>
    simp only [walkChildren] at hw
    rcases h1 : walkVisit L t pp d with ⟨ds₁, fs₁, n₁⟩ | m | m | c'
    all_goals rw [h1] at hw
    case _ =>
      rcases h2 : walkChildren L ts pp d with ⟨ds₂, fs₂, n₂⟩ | m | m | c'
      all_goals rw [h2] at hw
      case _ =>
        simp at hw
        obtain ⟨hds, hfs, -⟩ := hw
        obtain ⟨ihd1, ihf1⟩ := walkVisit_pruned L t pp d ds₁ fs₁ n₁ h1
        obtain ⟨ihd2, ihf2⟩ := walkChildren_pruned L ts pp d ds₂ fs₂ n₂ h2
        constructor
        · intro e he
          rw [← hds] at he
          rcases List.mem_append.mp he with he' | he'
          · exact ihd1 e he'
          · exact ihd2 e he'
        · intro q hq
          rw [← hfs] at hq
          rcases List.mem_append.mp hq with hq' | hq'
          · exact ihf1 q hq'
          · exact ihf2 q hq'
      all_goals simp at hw
    all_goals simp at hw
end

/-- C3: for every ignore-set `L` and every source tree, the walk output —
both the directory collection and the file list — contains only entries
strictly below the traversal base whose every path component below that base
(the entry's own file name included) fails the `ignorable` prefix test
against `L`; in particular no output entry has a name with a member of `L`
as a literal string prefix, and no output entry lies beneath a pruned
directory. -/
theorem claim_C3_pruning (L : List String) (t : FTree) (root : FPath) (wd' : WorkingDir)
    (hw : WorkingDir.walk ((WorkingDir.new root).ignore L) t = .ok wd') :
    (∀ e ∈ wd'.dirs, root.dropLast <+: e.path ∧ e.path ≠ root.dropLast ∧
        cleanUnder L root.dropLast e.path) ∧
      (∀ q ∈ wd'.files, root.dropLast <+: q ∧ q ≠ root.dropLast ∧
        cleanUnder L root.dropLast q) := by
  simp only [WorkingDir.walk, WorkingDir.new, WorkingDir.ignore, List.nil_append] at hw
  rcases hv : walkVisit L t root.dropLast 0 with ⟨ds, fs, sz⟩ | m | m | c'
  all_goals rw [hv] at hw
  case _ =>
    simp at hw
    obtain ⟨ihd, ihf⟩ := walkVisit_pruned L t root.dropLast 0 ds fs sz hv
    constructor
    · intro e he
      rw [← hw] at he
      simp at he
      exact ihd e he
    · intro q hq
      rw [← hw] at hq
      simp at hq
      exact ihf q hq
  all_goals simp at hw

/-- A walked tree for the C3 witness: root `p/src` containing a directory
`target` (pruned by the ignore-set `["targ"]`, a literal prefix of its name,
together with the file `x` beneath it) and a file `a.txt`. -/
def treeC3 : FTree :=
  .dir (.utf8 "src") [.dir (.utf8 "target") [.file (.utf8 "x") [1] true],
    .file (.utf8 "a.txt") [1, 2] true]

/-- The walk output for the C3 witness: `target` and everything beneath it is
pruned; only the root directory and `a.txt` remain. -/
def wdC3 : WorkingDir :=
  { parent := some [.utf8 "p"], root := [.utf8 "p", .utf8 "src"],
    dirs := [⟨[.utf8 "p", .utf8 "src"], 0⟩],
    files := [[.utf8 "p", .utf8 "src", .utf8 "a.txt"]],
    ignore_list := ["targ"], size := 2 }

/-- C3 witness: the pruning property at the concrete walk of `treeC3` with
ignore-set `["targ"]`. -/
theorem claim_C3_witness :
    WorkingDir.walk ((WorkingDir.new [.utf8 "p", .utf8 "src"]).ignore ["targ"]) treeC3 =
        .ok wdC3 ∧
      ((∀ e ∈ wdC3.dirs, [.utf8 "p"] <+: e.path ∧ e.path ≠ [.utf8 "p"] ∧
          cleanUnder ["targ"] [.utf8 "p"] e.path) ∧
        (∀ q ∈ wdC3.files, [.utf8 "p"] <+: q ∧ q ≠ [.utf8 "p"] ∧
          cleanUnder ["targ"] [.utf8 "p"] q)) :=
  ⟨by decide, claim_C3_pruning ["targ"] treeC3 [.utf8 "p", .utf8 "src"] wdC3 (by decide)⟩

/-! ## Basic facts about paths and the filesystem state -/

theorem stripPrefix_append (p q : FPath) : stripPrefix p (p ++ q) = some q := by
  induction p with
  | nil => rfl
  | cons a as ih => simp [stripPrefix, ih]

theorem stripPrefix_eq_some {p q s : FPath} (h : stripPrefix p q = some s) : q = p ++ s := by
  induction p generalizing q with
  | nil =>
    simp only [stripPrefix] at h
    cases h
    rfl
  | cons a as ih =>
    cases q with
    | nil => simp [stripPrefix] at h
    | cons b bs =>
      simp only [stripPrefix] at h
      by_cases hab : a = b
      · subst hab
        simp at h
        rw [ih h, List.cons_append]
      · simp [hab] at h

theorem stripPrefix_isSome_iff {p q : FPath} : (stripPrefix p q).isSome ↔ p <+: q := by
  constructor
  · intro h
    rcases hs : stripPrefix p q with _ | s
    · rw [hs] at h; simp at h
    · exact ⟨s, (stripPrefix_eq_some hs).symm⟩
  · rintro ⟨s, rfl⟩
    rw [stripPrefix_append]
    rfl

theorem fsFind_fsSet (σ : FS) (p x : FPath) (n : Node) :
    fsFind (fsSet σ p n) x = if p = x then some n else fsFind σ x := rfl

/-- The number of bytes `fs::copy` would read from the source path: the size
of the file found there, and `0` when there is no file to copy (the copy
fails). -/
def sourceSize (σ : FS) (p : FPath) : Nat :=
  match fsFind σ p with
  | some (.file c) => c.length
  | _ => 0

/-- The file-copy loop of `_load_files` processes every entry and returns
`Ok` with the sum of the byte counts of the copies that succeeded: under the
side conditions that every entry's target file can be created (its target
parent directory exists and its target is not a directory, targets never
collide with each other's parent directories, and targets lie outside the
source entries), an entry whose `fs::copy` fails — because no source file
exists at the entry's path — is skipped without aborting the loop and
without surfacing an error, and simply contributes nothing to the total. -/
theorem loadFilesGo_ok (parent : FPath) (tgt : BifrostPath) :
    ∀ (files : List FPath) (σ : FS),
      (∀ e ∈ files, ∃ s, stripPrefix parent e = some s ∧ s ≠ []) →
      (∀ e ∈ files, ¬ tgt.path <+: e) →
      (∀ e ∈ files, ∀ s, stripPrefix parent e = some s →
        (tgt.path ++ s).dropLast = [] ∨ fsFind σ ((tgt.path ++ s).dropLast) = some .dir) →
      (∀ e ∈ files, ∀ s, stripPrefix parent e = some s →
        fsFind σ (tgt.path ++ s) ≠ some .dir) →
      (∀ e ∈ files, ∀ e' ∈ files, ∀ s s', stripPrefix parent e = some s →
        stripPrefix parent e' = some s' → tgt.path ++ s ≠ (tgt.path ++ s').dropLast) →
      ∃ σ', loadFilesGo parent tgt files σ =
        (.ok ((files.map (sourceSize σ)).sum), σ') := by
  intro files
  induction files with
  | nil =>
    intro σ _ _ _ _ _
    exact ⟨σ, rfl⟩
  | cons e es ih =>
    intro σ h1 h2 h3 h4 h5
    obtain ⟨s, hs, hsne⟩ := h1 e (List.mem_cons_self e es)
    have htne : tgt.path ++ s ≠ [] := by
      intro hc
      exact hsne (List.append_eq_nil.mp hc).2
    have hEne : ∀ x : FPath, ¬ tgt.path <+: x → x ≠ tgt.path ++ s := by
      intro x hx hc
      exact hx (hc ▸ List.prefix_append tgt.path s)
    -- create the target file
    have hcreate : fileCreate σ (tgt.path ++ s) =
        (.ok (), fsSet σ (tgt.path ++ s) (.file [])) := by
      obtain ⟨a, as, hcons⟩ := List.exists_cons_of_ne_nil htne
      rw [hcons]
      rw [← hcons]
      show fileCreate σ (tgt.path ++ s) = _
      have hcond : (tgt.path ++ s).dropLast = [] ∨
          fsFind σ ((tgt.path ++ s).dropLast) = some .dir :=
        h3 e (List.mem_cons_self e es) s hs
      have hnd : fsFind σ (tgt.path ++ s) ≠ some .dir :=
        h4 e (List.mem_cons_self e es) s hs
      rcases hfd : fsFind σ (tgt.path ++ s) with _ | nd
      · rw [hcons]
        simp only [fileCreate]
        rw [← hcons, if_pos hcond, hfd]
      · cases nd with
        | dir => exact absurd hfd hnd
        | file c0 =>
          rw [hcons]
          simp only [fileCreate]
          rw [← hcons, if_pos hcond, hfd]
    have hσ1find : ∀ x, x ≠ tgt.path ++ s →
        fsFind (fsSet σ (tgt.path ++ s) (.file [])) x = fsFind σ x := by
      intro x hx
      rw [fsFind_fsSet, if_neg (fun hc => hx hc.symm)]
    rcases hsrcv : fsFind σ e with _ | nd
    · -- no source entry: the copy fails, the loop continues
      have hcopy : fsCopy (fsSet σ (tgt.path ++ s) (.file [])) e (tgt.path ++ s) =
          (.err "No such file or directory", fsSet σ (tgt.path ++ s) (.file [])) := by
        have := hσ1find e (hEne e (h2 e (List.mem_cons_self e es)))
        simp only [fsCopy, this, hsrcv]
      obtain ⟨σ', hrec⟩ := ih (fsSet σ (tgt.path ++ s) (.file []))
        (fun x hx => h1 x (List.mem_cons_of_mem e hx))
        (fun x hx => h2 x (List.mem_cons_of_mem e hx))
        (by
          intro x hx s' hs'
          rcases h3 x (List.mem_cons_of_mem e hx) s' hs' with hl | hr
          · exact Or.inl hl
          · refine Or.inr ?_
            rw [hσ1find _ ?_, hr]
            exact fun hc =>
              (h5 e (List.mem_cons_self e es) x (List.mem_cons_of_mem e hx) s s' hs hs') hc.symm)
        (by
          intro x hx s' hs'
          by_cases hc : (tgt.path ++ s') = tgt.path ++ s
          · rw [hc, fsFind_fsSet, if_pos rfl]
            simp
          · rw [hσ1find _ hc]
            exact h4 x (List.mem_cons_of_mem e hx) s' hs')
        (fun x hx x' hx' s₁ s₂ hs₁ hs₂ =>
          h5 x (List.mem_cons_of_mem e hx) x' (List.mem_cons_of_mem e hx') s₁ s₂ hs₁ hs₂)
      refine ⟨σ', ?_⟩
      have hsums : (es.map (sourceSize (fsSet σ (tgt.path ++ s) (.file [])))).sum =
          (es.map (sourceSize σ)).sum := by
        have : ∀ x ∈ es, sourceSize (fsSet σ (tgt.path ++ s) (.file [])) x = sourceSize σ x := by
          intro x hx
          unfold sourceSize
          rw [hσ1find x (hEne x (h2 x (List.mem_cons_of_mem e hx)))]
        rw [List.map_congr_left this]
      have hsz : sourceSize σ e = 0 := by
        unfold sourceSize
        rw [hsrcv]
      simp only [loadFilesGo, hs, hcreate, bindS, hcopy, hrec, List.map_cons, List.sum_cons,
        hsums, hsz, Nat.zero_add]
    · cases nd with
      | dir =>
        -- a directory at the source path: `fs::copy` fails, the loop continues
        have hcopy : fsCopy (fsSet σ (tgt.path ++ s) (.file [])) e (tgt.path ++ s) =
            (.err "No such file or directory", fsSet σ (tgt.path ++ s) (.file [])) := by
          have := hσ1find e (hEne e (h2 e (List.mem_cons_self e es)))
          simp only [fsCopy, this, hsrcv]
        obtain ⟨σ', hrec⟩ := ih (fsSet σ (tgt.path ++ s) (.file []))
          (fun x hx => h1 x (List.mem_cons_of_mem e hx))
          (fun x hx => h2 x (List.mem_cons_of_mem e hx))
          (by
            intro x hx s' hs'
            rcases h3 x (List.mem_cons_of_mem e hx) s' hs' with hl | hr
            · exact Or.inl hl
            · refine Or.inr ?_
              rw [hσ1find _ ?_, hr]
              exact fun hc =>
                (h5 e (List.mem_cons_self e es) x (List.mem_cons_of_mem e hx) s s' hs hs') hc.symm)
          (by
            intro x hx s' hs'
            by_cases hc : (tgt.path ++ s') = tgt.path ++ s
            · rw [hc, fsFind_fsSet, if_pos rfl]
              simp
            · rw [hσ1find _ hc]
              exact h4 x (List.mem_cons_of_mem e hx) s' hs')
          (fun x hx x' hx' s₁ s₂ hs₁ hs₂ =>
            h5 x (List.mem_cons_of_mem e hx) x' (List.mem_cons_of_mem e hx') s₁ s₂ hs₁ hs₂)
        refine ⟨σ', ?_⟩
        have hsums : (es.map (sourceSize (fsSet σ (tgt.path ++ s) (.file [])))).sum =
            (es.map (sourceSize σ)).sum := by
          have : ∀ x ∈ es, sourceSize (fsSet σ (tgt.path ++ s) (.file [])) x =
              sourceSize σ x := by
            intro x hx
            unfold sourceSize
            rw [hσ1find x (hEne x (h2 x (List.mem_cons_of_mem e hx)))]
          rw [List.map_congr_left this]
        have hsz : sourceSize σ e = 0 := by
          unfold sourceSize
          rw [hsrcv]
        simp only [loadFilesGo, hs, hcreate, bindS, hcopy, hrec, List.map_cons, List.sum_cons,
          hsums, hsz, Nat.zero_add]
      | file c =>
        -- the copy succeeds and contributes the file's size
        have hfind1 : fsFind (fsSet σ (tgt.path ++ s) (.file [])) e = some (.file c) := by
          rw [hσ1find e (hEne e (h2 e (List.mem_cons_self e es))), hsrcv]
        have hdst : fsFind (fsSet σ (tgt.path ++ s) (.file [])) (tgt.path ++ s) =
            some (.file []) := by
          rw [fsFind_fsSet, if_pos rfl]
        have hcopy : fsCopy (fsSet σ (tgt.path ++ s) (.file [])) e (tgt.path ++ s) =
            (.ok c.length,
              fsSet (fsSet σ (tgt.path ++ s) (.file [])) (tgt.path ++ s) (.file c)) := by
          obtain ⟨a, as, hcons⟩ := List.exists_cons_of_ne_nil htne
          simp only [fsCopy, hfind1]
          rw [hcons, ← hcons]
          have hcond : (tgt.path ++ s).dropLast = [] ∨
              fsFind (fsSet σ (tgt.path ++ s) (.file [])) ((tgt.path ++ s).dropLast) =
                some .dir ∨
              (fsFind (fsSet σ (tgt.path ++ s) (.file [])) (tgt.path ++ s)).isSome := by
            refine Or.inr (Or.inr ?_)
            rw [hdst]
            rfl
          rw [hcons]
          show (if (a :: as).dropLast = [] ∨ _ = some Node.dir ∨ _ then _ else _) = _
          rw [← hcons, if_pos hcond, hdst]
        set σ₂ := fsSet (fsSet σ (tgt.path ++ s) (.file [])) (tgt.path ++ s) (.file c) with hσ2
        have hσ2find : ∀ x, x ≠ tgt.path ++ s → fsFind σ₂ x = fsFind σ x := by
          intro x hx
          rw [hσ2, fsFind_fsSet, if_neg (fun hc => hx hc.symm),
            fsFind_fsSet, if_neg (fun hc => hx hc.symm)]
        obtain ⟨σ', hrec⟩ := ih σ₂
          (fun x hx => h1 x (List.mem_cons_of_mem e hx))
          (fun x hx => h2 x (List.mem_cons_of_mem e hx))
          (by
            intro x hx s' hs'
            rcases h3 x (List.mem_cons_of_mem e hx) s' hs' with hl | hr
            · exact Or.inl hl
            · refine Or.inr ?_
              rw [hσ2find _ ?_, hr]
              exact fun hc =>
                (h5 e (List.mem_cons_self e es) x (List.mem_cons_of_mem e hx) s s' hs hs') hc.symm)
          (by
            intro x hx s' hs'
            by_cases hc : (tgt.path ++ s') = tgt.path ++ s
            · rw [hc, hσ2, fsFind_fsSet, if_pos rfl]
              simp
            · rw [hσ2find _ hc]
              exact h4 x (List.mem_cons_of_mem e hx) s' hs')
          (fun x hx x' hx' s₁ s₂ hs₁ hs₂ =>
            h5 x (List.mem_cons_of_mem e hx) x' (List.mem_cons_of_mem e hx') s₁ s₂ hs₁ hs₂)
        refine ⟨σ', ?_⟩
        have hsums : (es.map (sourceSize σ₂)).sum = (es.map (sourceSize σ)).sum := by
          have : ∀ x ∈ es, sourceSize σ₂ x = sourceSize σ x := by
            intro x hx
            unfold sourceSize
            rw [hσ2find x (hEne x (h2 x (List.mem_cons_of_mem e hx)))]
          rw [List.map_congr_left this]
        have hsz : sourceSize σ e = c.length := by
          unfold sourceSize
          rw [hsrcv]
        simp only [loadFilesGo, hs, hcreate, bindS, hcopy, hrec, List.map_cons, List.sum_cons,
          hsums, hsz]

/-- The target path of one copied entry, as `_load_files` computes it:
`to.path.join(entry.strip_prefix(parent))` (the empty suffix when the strip
fails — such entries are skipped by the loop). -/
def targetOf (parent : FPath) (tgt : BifrostPath) (e : FPath) : FPath :=
  tgt.path ++ ((stripPrefix parent e).getD [])

/-- C9: during the file-copy phase of a load, a failure of an individual
`fs::copy` — no source file exists at an entry's path — does not abort the
loop and does not surface as an I/O error: under the creation side
conditions (every entry's target parent directory exists, no target is a
directory, targets never collide with each other's parent directories, and
targets lie outside the source entries), `_load_files` returns `Ok` with the
sum of the sizes of exactly the entries whose copy succeeded (`sourceSize`
is `0` for a failed copy), so the failed file's bytes are simply not added.
Second conjunct: the failure becomes observable only through the final
byte-count check — whenever `_load` completes with a byte total different
from the walk-recorded `WorkingDir::size`, `try_load` fails with the
incomplete-load error. -/
theorem claim_C9_copy_failure_skipped :
    (∀ (parent : FPath) (wd : WorkingDir) (tgt : BifrostPath) (σ : FS),
      (∀ e ∈ wd.files, (stripPrefix parent e).isSome ∧ targetOf parent tgt e ≠ tgt.path) →
      (∀ e ∈ wd.files, ¬ tgt.path <+: e) →
      (∀ e ∈ wd.files, (targetOf parent tgt e).dropLast = [] ∨
        fsFind σ ((targetOf parent tgt e).dropLast) = some .dir) →
      (∀ e ∈ wd.files, fsFind σ (targetOf parent tgt e) ≠ some .dir) →
      (∀ e ∈ wd.files, ∀ e' ∈ wd.files,
        targetOf parent tgt e ≠ (targetOf parent tgt e').dropLast) →
      ∃ σ', load_files parent wd tgt σ =
        (.ok ((wd.files.map (sourceSize σ)).sum), σ')) ∧
    (∀ (wd : WorkingDir) (tgt : BifrostPath) (σ : FS) (n : Nat) (σ₂ : FS),
      _load wd tgt σ = (.ok n, σ₂) → n ≠ wd.size →
      try_load wd tgt σ =
        (.err "error: `workingdir::try_load` failed to load entire `WorkingDir`", σ₂)) := by
  constructor
  · intro parent wd tgt σ h1 h2 h3 h4 h5
    refine loadFilesGo_ok parent tgt wd.files σ ?_ h2 ?_ ?_ ?_
    · intro e he
      obtain ⟨hss, hne⟩ := h1 e he
      rcases hs : stripPrefix parent e with _ | s
      · rw [hs] at hss; simp at hss
      · refine ⟨s, rfl, ?_⟩
        rintro rfl
        exact hne (by simp [targetOf, hs])
    · intro e he s hs
      have := h3 e he
      rwa [targetOf, hs, Option.getD_some] at this
    · intro e he s hs
      have := h4 e he
      rwa [targetOf, hs, Option.getD_some] at this
    · intro e he e' he' s s' hs hs'
      have := h5 e he e' he'
      rwa [targetOf, targetOf, hs, hs', Option.getD_some, Option.getD_some] at this
  · intro wd tgt σ n σ₂ hload hne
    simp only [try_load, hload, bindS, if_pos hne]

/-- The concrete file list for the C9 witness: three entries below the parent
`p`; the middle one, `p/b`, has no source file in the filesystem below, so
its copy fails. -/
def filesC9 : List FPath :=
  [[.utf8 "p", .utf8 "a"], [.utf8 "p", .utf8 "b"], [.utf8 "p", .utf8 "c"]]

/-- The concrete filesystem for the C9 witness: the target root `t` exists as
a directory, and source files exist at `p/a` (1 byte) and `p/c` (2 bytes) but
not at `p/b`. -/
def fsC9 : FS :=
  [([.utf8 "t"], .dir),
   ([.utf8 "p", .utf8 "a"], .file [9]),
   ([.utf8 "p", .utf8 "c"], .file [7, 8])]

/-- C9 witness: at the concrete instance the loop runs to completion, returns
`Ok`, and totals `1 + 0 + 2` bytes — the failed copy of `p/b` is skipped and
contributes nothing. -/
theorem claim_C9_witness :
    ∃ σ', load_files [.utf8 "p"]
        { parent := some [.utf8 "p"], root := [.utf8 "p"], dirs := [], files := filesC9,
          ignore_list := [], size := 3 } ⟨[.utf8 "t"]⟩ fsC9 =
      (.ok ((filesC9.map (sourceSize fsC9)).sum), σ') :=
  claim_C9_copy_failure_skipped.1 [.utf8 "p"]
    { parent := some [.utf8 "p"], root := [.utf8 "p"], dirs := [], files := filesC9,
      ignore_list := [], size := 3 } ⟨[.utf8 "t"]⟩ fsC9
    (by decide) (by decide) (by decide) (by decide) (by decide)

/-! ## Frame lemmas: what the load phases may write (claim C8) -/

theorem mem_inits1 {q p : FPath} : q ∈ inits1 p ↔ (q ≠ [] ∧ q <+: p) := by
  induction p generalizing q with
  | nil =>
    simp only [inits1, List.not_mem_nil, false_iff]
    rintro ⟨hne, hpre⟩
    exact hne (List.prefix_nil.mp hpre)
  | cons a as ih =>
    simp only [inits1, List.mem_cons, List.mem_map]
    constructor
    · rintro (rfl | ⟨r, hr, rfl⟩)
      · exact ⟨by simp, ⟨as, rfl⟩⟩
      · obtain ⟨hne, hpre⟩ := ih.mp hr
        obtain ⟨t, ht⟩ := hpre
        exact ⟨by simp, ⟨t, by rw [List.cons_append, ht]⟩⟩
    · rintro ⟨hne, hpre⟩
      cases q with
      | nil => exact absurd rfl hne
      | cons b bs =>
        obtain ⟨r, hr⟩ := hpre
        injection hr with hb hrest
        subst hb
        cases bs with
        | nil => exact Or.inl rfl
        | cons c cs =>
          refine Or.inr ⟨c :: cs, ih.mpr ⟨by simp, ⟨r, hrest⟩⟩, rfl⟩

theorem fsFind_eq_some_mem : ∀ {σ : FS} {p : FPath} {v : Node},
    fsFind σ p = some v → (p, v) ∈ σ := by
  intro σ
  induction σ with
  | nil => intro p v h; simp [fsFind] at h
  | cons kv σ ih =>
    intro p v h
    obtain ⟨q, n⟩ := kv
    simp only [fsFind] at h
    by_cases hq : q = p
    · subst hq
      simp at h
      subst h
      exact List.mem_cons_self _ _
    · rw [if_neg hq] at h
      exact List.mem_cons_of_mem _ (ih h)

/-- Directory entries are never overwritten by any of the load's filesystem
operations; this predicate is the persistence fact threaded through them. -/
def dirsPersist (σ σ' : FS) : Prop :=
  ∀ r, fsFind σ r = some .dir → fsFind σ' r = some .dir

theorem createDir1_effects (σ : FS) (q : FPath) :
    (∀ x, x ≠ q → fsFind (createDir1 σ q).2 x = fsFind σ x) ∧
      dirsPersist σ (createDir1 σ q).2 := by
  unfold createDir1
  rcases hf : fsFind σ q with _ | n
  · refine ⟨?_, ?_⟩
    · intro x hx
      rw [fsFind_fsSet, if_neg (fun hc : q = x => hx hc.symm)]
    · intro r hr
      rw [fsFind_fsSet]
      by_cases hq : q = r
      · rw [if_pos hq]
      · rw [if_neg hq]; exact hr
  · cases n with
    | dir => exact ⟨fun x _ => rfl, fun r hr => hr⟩
    | file c => exact ⟨fun x _ => rfl, fun r hr => hr⟩

theorem createDirAllGo_effects (A : FPath → Prop) :
    ∀ (qs : List FPath) (σ : FS),
      (∀ q ∈ qs, A q ∨ fsFind σ q = some .dir) →
      (∀ x, ¬ A x → fsFind (createDirAllGo σ qs).2 x = fsFind σ x) ∧
        dirsPersist σ (createDirAllGo σ qs).2 := by
  intro qs
  induction qs with
  | nil => exact fun σ _ => ⟨fun x _ => rfl, fun r hr => hr⟩
  | cons q qs ih =>
    intro σ hq
    rcases hf : fsFind σ q with _ | n
    · -- the component is missing: it is created as a directory
      have hcd : createDir1 σ q = (.ok (), fsSet σ q .dir) := by
        unfold createDir1
        rw [hf]
      have hAq : A q := by
        rcases hq q (List.mem_cons_self q qs) with hA | hd
        · exact hA
        · rw [hf] at hd
          cases hd
      obtain ⟨hframe2, hdirs2⟩ := ih (fsSet σ q .dir) (by
        intro q' hq'
        rcases hq q' (List.mem_cons_of_mem q hq') with hA | hd
        · exact Or.inl hA
        · refine Or.inr ?_
          rw [fsFind_fsSet]
          by_cases hqq : q = q'
          · rw [if_pos hqq]
          · rw [if_neg hqq]
            exact hd)
      constructor
      · intro x hx
        have hxq : x ≠ q := fun hc => hx (hc ▸ hAq)
        calc fsFind (createDirAllGo σ (q :: qs)).2 x
            = fsFind (createDirAllGo (fsSet σ q .dir) qs).2 x := by
              simp only [createDirAllGo, hcd]
          _ = fsFind (fsSet σ q .dir) x := hframe2 x hx
          _ = fsFind σ x := by rw [fsFind_fsSet, if_neg (fun hc => hxq hc.symm)]
      · intro r hr
        have h1 : fsFind (fsSet σ q .dir) r = some .dir := by
          rw [fsFind_fsSet]
          by_cases hqr : q = r
          · rw [if_pos hqr]
          · rw [if_neg hqr]
            exact hr
        have h2 := hdirs2 r h1
        simpa only [createDirAllGo, hcd] using h2
    · cases n with
      | dir =>
        -- the component already is a directory: nothing is written
        have hcd : createDir1 σ q = (.ok (), σ) := by
          unfold createDir1
          rw [hf]
        obtain ⟨hframe2, hdirs2⟩ := ih σ (by
          intro q' hq'
          exact hq q' (List.mem_cons_of_mem q hq'))
        refine ⟨?_, ?_⟩
        · intro x hx
          have := hframe2 x hx
          simpa only [createDirAllGo, hcd] using this
        · intro r hr
          have := hdirs2 r hr
          simpa only [createDirAllGo, hcd] using this
      | file c =>
        -- the component is an existing file: the walk of prefixes stops
        have hcd : createDir1 σ q = (.err "File exists", σ) := by
          unfold createDir1
          rw [hf]
        refine ⟨?_, ?_⟩
        · intro x hx
          simp only [createDirAllGo, hcd]
        · intro r hr
          simp only [createDirAllGo, hcd]
          exact hr

theorem createDirAll_effects (tgt : FPath) (s : FPath) (σ : FS)
    (hanc : ∀ q, q <+: tgt → q ≠ tgt → q ≠ [] → fsFind σ q = some .dir) :
    (∀ x, ¬ tgt <+: x → fsFind (createDirAll σ (tgt ++ s)).2 x = fsFind σ x) ∧
      dirsPersist σ (createDirAll σ (tgt ++ s)).2 := by
  unfold createDirAll
  rcases hp : tgt ++ s with _ | ⟨a, as⟩
  · exact ⟨fun x _ => rfl, fun r hr => hr⟩
  · rw [← hp]
    have hcond : ∀ q ∈ inits1 (tgt ++ s), (tgt <+: q) ∨ fsFind σ q = some .dir := by
      intro q hq
      obtain ⟨hne, hpre⟩ := mem_inits1.mp hq
      rcases List.prefix_or_prefix_of_prefix hpre (List.prefix_append tgt s) with hc | hc
      · by_cases hqt : q = tgt
        · exact Or.inl (hqt ▸ List.prefix_refl q)
        · exact Or.inr (hanc q hc hqt hne)
      · exact Or.inl hc
    have := createDirAllGo_effects (fun x => tgt <+: x) (inits1 (tgt ++ s)) σ hcond
    rcases hgo : createDirAllGo σ (inits1 (tgt ++ s)) with ⟨r, σ'⟩
    rw [hgo] at this
    rcases hp2 : tgt ++ s with _ | ⟨b, bs⟩
    · rw [hp2] at hp
      simp at hp
    · exact this

theorem fileCreate_eq (σ : FS) (a : OsName) (as : List OsName) :
    fileCreate σ (a :: as) =
      if (a :: as).dropLast = [] ∨ fsFind σ ((a :: as).dropLast) = some .dir then
        match fsFind σ (a :: as) with
        | some .dir => ((.err "Is a directory" : RRes Unit), σ)
        | _ => (.ok (), fsSet σ (a :: as) (.file []))
      else (.err "No such file or directory", σ) := rfl

theorem fileCreate_effects (σ : FS) (p : FPath) :
    (∀ x, x ≠ p → fsFind (fileCreate σ p).2 x = fsFind σ x) ∧
      dirsPersist σ (fileCreate σ p).2 := by
  cases p with
  | nil => exact ⟨fun x _ => rfl, fun r hr => hr⟩
  | cons a as =>
    by_cases hcond : (a :: as).dropLast = [] ∨ fsFind σ ((a :: as).dropLast) = some .dir
    · rcases hf : fsFind σ (a :: as) with _ | n
      · have hres : fileCreate σ (a :: as) = (.ok (), fsSet σ (a :: as) (.file [])) := by
          rw [fileCreate_eq, if_pos hcond, hf]
        refine ⟨?_, ?_⟩
        · intro x hx
          simp only [hres]
          rw [fsFind_fsSet, if_neg (fun hc : a :: as = x => hx hc.symm)]
        · intro r hr
          simp only [hres]
          rw [fsFind_fsSet]
          by_cases hpr : a :: as = r
          · subst hpr
            rw [hf] at hr
            cases hr
          · rw [if_neg hpr]
            exact hr
      · cases n with
        | dir =>
          have hres : fileCreate σ (a :: as) = (.err "Is a directory", σ) := by
            rw [fileCreate_eq, if_pos hcond, hf]
          exact ⟨fun x _ => by simp only [hres], fun r hr => by simp only [hres]; exact hr⟩
        | file c =>
          have hres : fileCreate σ (a :: as) = (.ok (), fsSet σ (a :: as) (.file [])) := by
            rw [fileCreate_eq, if_pos hcond, hf]
          refine ⟨?_, ?_⟩
          · intro x hx
            simp only [hres]
            rw [fsFind_fsSet, if_neg (fun hc : a :: as = x => hx hc.symm)]
          · intro r hr
            simp only [hres]
            rw [fsFind_fsSet]
            by_cases hpr : a :: as = r
            · subst hpr
              rw [hf] at hr
              cases hr
            · rw [if_neg hpr]
              exact hr
    · have hres : fileCreate σ (a :: as) = (.err "No such file or directory", σ) := by
        rw [fileCreate_eq, if_neg hcond]
      exact ⟨fun x _ => by simp only [hres], fun r hr => by simp only [hres]; exact hr⟩

theorem fsCopy_eq_file {σ : FS} {src : FPath} {c : List Nat}
    (hsrc : fsFind σ src = some (.file c)) (a : OsName) (as : List OsName) :
    fsCopy σ src (a :: as) =
      if (a :: as).dropLast = [] ∨ fsFind σ ((a :: as).dropLast) = some .dir ∨
          (fsFind σ (a :: as)).isSome then
        match fsFind σ (a :: as) with
        | some .dir => ((.err "Is a directory" : RRes Nat), σ)
        | _ => (.ok c.length, fsSet σ (a :: as) (.file c))
      else (.err "No such file or directory", σ) := by
  unfold fsCopy
  rw [hsrc]

theorem fsCopy_effects (σ : FS) (src dst : FPath) :
    (∀ x, x ≠ dst → fsFind (fsCopy σ src dst).2 x = fsFind σ x) ∧
      dirsPersist σ (fsCopy σ src dst).2 := by
  rcases hsrc : fsFind σ src with _ | n
  · have hres : fsCopy σ src dst = (.err "No such file or directory", σ) := by
      unfold fsCopy
      rw [hsrc]
    exact ⟨fun x _ => by simp only [hres], fun r hr => by simp only [hres]; exact hr⟩
  · cases n with
    | dir =>
      have hres : fsCopy σ src dst = (.err "No such file or directory", σ) := by
        unfold fsCopy
        rw [hsrc]
      exact ⟨fun x _ => by simp only [hres], fun r hr => by simp only [hres]; exact hr⟩
    | file c =>
      cases dst with
      | nil =>
        have hres : fsCopy σ src [] = (.err "cannot copy to an empty path", σ) := by
          unfold fsCopy
          rw [hsrc]
        exact ⟨fun x _ => by simp only [hres], fun r hr => by simp only [hres]; exact hr⟩
      | cons a as =>
        by_cases hcond : (a :: as).dropLast = [] ∨
            fsFind σ ((a :: as).dropLast) = some .dir ∨ (fsFind σ (a :: as)).isSome
        · rcases hf : fsFind σ (a :: as) with _ | n2
          · have hres : fsCopy σ src (a :: as) =
                (.ok c.length, fsSet σ (a :: as) (.file c)) := by
              rw [fsCopy_eq_file hsrc, if_pos hcond, hf]
            refine ⟨?_, ?_⟩
            · intro x hx
              simp only [hres]
              rw [fsFind_fsSet, if_neg (fun hc : a :: as = x => hx hc.symm)]
            · intro r hr
              simp only [hres]
              rw [fsFind_fsSet]
              by_cases hpr : a :: as = r
              · subst hpr
                rw [hf] at hr
                cases hr
              · rw [if_neg hpr]
                exact hr
          · cases n2 with
            | dir =>
              have hres : fsCopy σ src (a :: as) = (.err "Is a directory", σ) := by
                rw [fsCopy_eq_file hsrc, if_pos hcond, hf]
              exact ⟨fun x _ => by simp only [hres],
                fun r hr => by simp only [hres]; exact hr⟩
            | file c2 =>
              have hres : fsCopy σ src (a :: as) =
                  (.ok c.length, fsSet σ (a :: as) (.file c)) := by
                rw [fsCopy_eq_file hsrc, if_pos hcond, hf]
              refine ⟨?_, ?_⟩
              · intro x hx
                simp only [hres]
                rw [fsFind_fsSet, if_neg (fun hc : a :: as = x => hx hc.symm)]
              · intro r hr
                simp only [hres]
                rw [fsFind_fsSet]
                by_cases hpr : a :: as = r
                · subst hpr
                  rw [hf] at hr
                  cases hr
                · rw [if_neg hpr]
                  exact hr
        · have hres : fsCopy σ src (a :: as) = (.err "No such file or directory", σ) := by
            rw [fsCopy_eq_file hsrc, if_neg hcond]
          exact ⟨fun x _ => by simp only [hres], fun r hr => by simp only [hres]; exact hr⟩

theorem loadFilesGo_frame (parent : FPath) (tgt : BifrostPath) :
    ∀ (files : List FPath) (σ : FS) (x : FPath), ¬ tgt.path <+: x →
      fsFind (loadFilesGo parent tgt files σ).2 x = fsFind σ x := by
  intro files
  induction files with
  | nil => exact fun σ x _ => rfl
  | cons e es ih =>
    intro σ x hx
    have hxT : ∀ s : FPath, x ≠ tgt.path ++ s := by
      intro s hc
      exact hx (hc ▸ List.prefix_append tgt.path s)
    show fsFind (loadFilesGo parent tgt (e :: es) σ).2 x = fsFind σ x
    rcases hs : stripPrefix parent e with _ | s
    · simp only [loadFilesGo, hs]
      exact ih σ x hx
    · rcases hfc : fileCreate σ (tgt.path ++ s) with ⟨r, σ₁⟩
      have hframe1 : fsFind σ₁ x = fsFind σ x := by
        have := (fileCreate_effects σ (tgt.path ++ s)).1 x (hxT s)
        rwa [hfc] at this
      cases r with
      | ok u =>
        rcases hcp : fsCopy σ₁ e (tgt.path ++ s) with ⟨r2, σ₂⟩
        have hframe2 : fsFind σ₂ x = fsFind σ₁ x := by
          have := (fsCopy_effects σ₁ e (tgt.path ++ s)).1 x (hxT s)
          rwa [hcp] at this
        cases r2 with
        | ok n =>
          have hrec := ih σ₂ x hx
          rcases hr : loadFilesGo parent tgt es σ₂ with ⟨r3, σ₃⟩
          rw [hr] at hrec
          have : (loadFilesGo parent tgt (e :: es) σ).2 = σ₃ := by
            simp only [loadFilesGo, hs, hfc, bindS, hcp, hr]
            cases r3 <;> rfl
          rw [this, hrec, hframe2, hframe1]
        | err m =>
          have hrec := ih σ₂ x hx
          have : (loadFilesGo parent tgt (e :: es) σ).2 =
              (loadFilesGo parent tgt es σ₂).2 := by
            simp only [loadFilesGo, hs, hfc, bindS, hcp]
          rw [this, hrec, hframe2, hframe1]
        | panicked m =>
          have hrec := ih σ₂ x hx
          have : (loadFilesGo parent tgt (e :: es) σ).2 =
              (loadFilesGo parent tgt es σ₂).2 := by
            simp only [loadFilesGo, hs, hfc, bindS, hcp]
          rw [this, hrec, hframe2, hframe1]
        | exited c =>
          have hrec := ih σ₂ x hx
          have : (loadFilesGo parent tgt (e :: es) σ).2 =
              (loadFilesGo parent tgt es σ₂).2 := by
            simp only [loadFilesGo, hs, hfc, bindS, hcp]
          rw [this, hrec, hframe2, hframe1]
      | err m =>
        have : (loadFilesGo parent tgt (e :: es) σ).2 = σ₁ := by
          simp only [loadFilesGo, hs, hfc, bindS]
        rw [this, hframe1]
      | panicked m =>
        have : (loadFilesGo parent tgt (e :: es) σ).2 = σ₁ := by
          simp only [loadFilesGo, hs, hfc, bindS]
        rw [this, hframe1]
      | exited c =>
        have : (loadFilesGo parent tgt (e :: es) σ).2 = σ₁ := by
          simp only [loadFilesGo, hs, hfc, bindS]
        rw [this, hframe1]

/-- The ancestors-of-the-target condition used to state claim C8: every
nonempty strict prefix of the target path is an existing directory (a
well-formed filesystem in which the validated container path's ancestors
exist). -/
def ancestorsDirs (tgt : FPath) (σ : FS) : Prop :=
  ∀ q, q <+: tgt → q ≠ tgt → q ≠ [] → fsFind σ q = some .dir

theorem ancestorsDirs_persist {tgt : FPath} {σ σ' : FS}
    (hp : dirsPersist σ σ') (h : ancestorsDirs tgt σ) : ancestorsDirs tgt σ' :=
  fun q h1 h2 h3 => hp q (h q h1 h2 h3)

theorem loadDir_effects (parent : FPath) (fromE : DirEntryExt) (tgt : BifrostPath)
    (σ : FS) (hanc : ancestorsDirs tgt.path σ) :
    (∀ x, ¬ tgt.path <+: x → fsFind (loadDir parent fromE tgt σ).2 x = fsFind σ x) ∧
      dirsPersist σ (loadDir parent fromE tgt σ).2 := by
  unfold loadDir
  rcases hs : stripPrefix parent fromE.path with _ | s
  · exact ⟨fun x _ => rfl, fun r hr => hr⟩
  · exact createDirAll_effects tgt.path s σ hanc

theorem loadTopLevelDir_effects (parent : FPath) (fromE : DirEntryExt) (tgt : BifrostPath)
    (σ : FS) (hanc : ancestorsDirs tgt.path σ) :
    (∀ x, ¬ tgt.path <+: x →
        fsFind (loadTopLevelDir parent fromE tgt σ).2 x = fsFind σ x) ∧
      dirsPersist σ (loadTopLevelDir parent fromE tgt σ).2 := by
  unfold loadTopLevelDir
  rcases hs : stripPrefix parent fromE.path with _ | s
  · exact ⟨fun x _ => rfl, fun r hr => hr⟩
  · exact createDirAll_effects tgt.path s σ hanc

theorem loadDirsGo_effects (parent : FPath) (tgt : BifrostPath) :
    ∀ (fuel : Nat) (h : List DirEntryExt) (σ : FS), ancestorsDirs tgt.path σ →
      (∀ x, ¬ tgt.path <+: x →
          fsFind (loadDirsGo parent tgt fuel h σ).2 x = fsFind σ x) ∧
        dirsPersist σ (loadDirsGo parent tgt fuel h σ).2 := by
  intro fuel
  induction fuel with
  | zero => exact fun h σ _ => ⟨fun x _ => rfl, fun r hr => hr⟩
  | succ n ih =>
    intro h σ hanc
    show (∀ x, ¬ tgt.path <+: x →
        fsFind (loadDirsGo parent tgt (n + 1) h σ).2 x = fsFind σ x) ∧ _
    rcases hp : heapPop h with _ | ⟨fromE, rest⟩
    · constructor
      · intro x hx
        simp only [loadDirsGo, hp]
      · intro r hr
        simp only [loadDirsGo, hp]
        exact hr
    · obtain ⟨hframe1, hdirs1⟩ := loadDir_effects parent fromE tgt σ hanc
      rcases hld : loadDir parent fromE tgt σ with ⟨r, σ₁⟩
      rw [hld] at hframe1 hdirs1
      cases r with
      | ok u =>
        obtain ⟨hframe2, hdirs2⟩ := ih rest σ₁ (ancestorsDirs_persist hdirs1 hanc)
        refine ⟨?_, ?_⟩
        · intro x hx
          have : (loadDirsGo parent tgt (n + 1) h σ).2 =
              (loadDirsGo parent tgt n rest σ₁).2 := by
            simp only [loadDirsGo, hp, hld, bindS]
          rw [this, hframe2 x hx, hframe1 x hx]
        · intro r hr
          have : (loadDirsGo parent tgt (n + 1) h σ).2 =
              (loadDirsGo parent tgt n rest σ₁).2 := by
            simp only [loadDirsGo, hp, hld, bindS]
          rw [this]
          exact hdirs2 r (hdirs1 r hr)
      | err m =>
        have : (loadDirsGo parent tgt (n + 1) h σ).2 = σ₁ := by
          simp only [loadDirsGo, hp, hld, bindS]
        exact ⟨fun x hx => by rw [this, hframe1 x hx], fun r hr => by rw [this]; exact hdirs1 r hr⟩
      | panicked m =>
        have : (loadDirsGo parent tgt (n + 1) h σ).2 = σ₁ := by
          simp only [loadDirsGo, hp, hld, bindS]
        exact ⟨fun x hx => by rw [this, hframe1 x hx], fun r hr => by rw [this]; exact hdirs1 r hr⟩
      | exited c =>
        have : (loadDirsGo parent tgt (n + 1) h σ).2 = σ₁ := by
          simp only [loadDirsGo, hp, hld, bindS]
        exact ⟨fun x hx => by rw [this, hframe1 x hx], fun r hr => by rw [this]; exact hdirs1 r hr⟩

theorem load_frame (wd : WorkingDir) (tgt : BifrostPath) (σ : FS)
    (hanc : ancestorsDirs tgt.path σ) :
    ∀ x, ¬ tgt.path <+: x → fsFind (_load wd tgt σ).2 x = fsFind σ x := by
  intro x hx
  rcases hpar : wd.parent with _ | pb
  · unfold _load
    simp only [hpar]
  · unfold _load
    simp only [hpar]
    by_cases hutf : allUtf8 pb = true
    · rw [if_pos hutf]
      rcases hp : heapPop wd.dirs with _ | ⟨fromE, rest⟩
      · -- no directories: create the bare target path, then load the files
        have htl := createDirAll_effects tgt.path [] σ hanc
        rw [List.append_nil] at htl
        obtain ⟨hframe1, hdirs1⟩ := htl
        rcases hcd : createDirAll σ tgt.path with ⟨r, σ₁⟩
        rw [hcd] at hframe1 hdirs1
        simp only [bindS, load_files, hcd]
        cases r with
        | ok u =>
          have hfiles := loadFilesGo_frame pb tgt wd.files σ₁ x hx
          exact hfiles.trans (hframe1 x hx)
        | err m => exact hframe1 x hx
        | panicked m => exact hframe1 x hx
        | exited c => exact hframe1 x hx
      · -- top-level directory, remaining directories, then the files
        obtain ⟨hframe1, hdirs1⟩ := loadTopLevelDir_effects pb fromE tgt σ hanc
        rcases htl : loadTopLevelDir pb fromE tgt σ with ⟨r, σ₁⟩
        rw [htl] at hframe1 hdirs1
        simp only [bindS, load_files, htl]
        cases r with
        | ok u =>
          obtain ⟨hframe2, hdirs2⟩ :=
            loadDirsGo_effects pb tgt rest.length rest σ₁
              (ancestorsDirs_persist hdirs1 hanc)
          rcases hlg : loadDirsGo pb tgt rest.length rest σ₁ with ⟨r2, σ₂⟩
          rw [hlg] at hframe2 hdirs2
          simp only [hlg]
          cases r2 with
          | ok u2 =>
            have hfiles := loadFilesGo_frame pb tgt wd.files σ₂ x hx
            exact hfiles.trans ((hframe2 x hx).trans (hframe1 x hx))
          | err m => exact (hframe2 x hx).trans (hframe1 x hx)
          | panicked m => exact (hframe2 x hx).trans (hframe1 x hx)
          | exited c => exact (hframe2 x hx).trans (hframe1 x hx)
        | err m => exact hframe1 x hx
        | panicked m => exact hframe1 x hx
        | exited c => exact hframe1 x hx
    · rw [if_neg hutf]

/-- C8: the materializing copy writes only beneath the validated target path
and never touches the source tree.  Under the validity conditions that every
nonempty strict prefix of the target path is an existing directory (stated
over the finite prefix list `inits1`) and that nothing yet exists at or below
the target path, running `_load` — whether it succeeds or fails — leaves
every path outside the target subtree exactly as it was; in particular every
source directory and file that existed before the load still exists with
unchanged contents after it. -/
theorem claim_C8_no_source_modification (wd : WorkingDir) (tgt : BifrostPath) (σ : FS)
    (hanc : ∀ q ∈ inits1 tgt.path, q ≠ tgt.path → fsFind σ q = some .dir)
    (hfresh : ∀ kv ∈ σ, ¬ tgt.path <+: kv.1) :
    (∀ x, ¬ tgt.path <+: x → fsFind (_load wd tgt σ).2 x = fsFind σ x) ∧
      (∀ p v, fsFind σ p = some v → fsFind (_load wd tgt σ).2 p = some v) := by
  have hanc' : ancestorsDirs tgt.path σ := by
    intro q h1 h2 h3
    exact hanc q (mem_inits1.mpr ⟨h3, h1⟩) h2
  refine ⟨load_frame wd tgt σ hanc', ?_⟩
  intro p v hv
  have hout : ¬ tgt.path <+: p := hfresh (p, v) (fsFind_eq_some_mem hv)
  rw [load_frame wd tgt σ hanc' p hout]
  exact hv

/-- C8 witness: a concrete load — the Scenario-A tree already walked into a
`WorkingDir` — into a fresh target `h/c` whose ancestor `h` exists as a
directory leaves the source entries (and everything else outside `h/c`)
untouched. -/
theorem claim_C8_witness :
    (∀ q ∈ inits1 [OsName.utf8 "h", OsName.utf8 "c"],
        q ≠ [OsName.utf8 "h", OsName.utf8 "c"] →
        fsFind [([OsName.utf8 "h"], Node.dir),
          ([OsName.utf8 "p", OsName.utf8 "src"], Node.dir),
          ([OsName.utf8 "p", OsName.utf8 "src", OsName.utf8 "a"], Node.file [1])] q =
          some .dir) ∧
      (∀ kv ∈ ([([OsName.utf8 "h"], Node.dir),
          ([OsName.utf8 "p", OsName.utf8 "src"], Node.dir),
          ([OsName.utf8 "p", OsName.utf8 "src", OsName.utf8 "a"], Node.file [1])] : FS),
        ¬ [OsName.utf8 "h", OsName.utf8 "c"] <+: kv.1) ∧
      (∀ p v, fsFind [([OsName.utf8 "h"], Node.dir),
          ([OsName.utf8 "p", OsName.utf8 "src"], Node.dir),
          ([OsName.utf8 "p", OsName.utf8 "src", OsName.utf8 "a"], Node.file [1])] p =
            some v →
        fsFind (_load
          { parent := some [OsName.utf8 "p"], root := [OsName.utf8 "p", OsName.utf8 "src"],
            dirs := [⟨[OsName.utf8 "p", OsName.utf8 "src"], 0⟩],
            files := [[OsName.utf8 "p", OsName.utf8 "src", OsName.utf8 "a"]],
            ignore_list := [], size := 1 }
          ⟨[OsName.utf8 "h", OsName.utf8 "c"]⟩
          [([OsName.utf8 "h"], Node.dir),
            ([OsName.utf8 "p", OsName.utf8 "src"], Node.dir),
            ([OsName.utf8 "p", OsName.utf8 "src", OsName.utf8 "a"], Node.file [1])]).2 p =
          some v) :=
  ⟨by decide, by decide,
    (claim_C8_no_source_modification
      { parent := some [OsName.utf8 "p"], root := [OsName.utf8 "p", OsName.utf8 "src"],
        dirs := [⟨[OsName.utf8 "p", OsName.utf8 "src"], 0⟩],
        files := [[OsName.utf8 "p", OsName.utf8 "src", OsName.utf8 "a"]],
        ignore_list := [], size := 1 }
      ⟨[OsName.utf8 "h", OsName.utf8 "c"]⟩
      [([OsName.utf8 "h"], Node.dir),
        ([OsName.utf8 "p", OsName.utf8 "src"], Node.dir),
        ([OsName.utf8 "p", OsName.utf8 "src", OsName.utf8 "a"], Node.file [1])]
      (by decide) (by decide)).2⟩

/-! ## Walk/load composition (claim C1): ghost views of a walked tree -/

mutual
/-- The filesystem contents induced by the tree `t` sitting at
`pp ++ [t.name]`: the association list a real on-disk copy of `t` denotes
(`errEntry` nodes are unreadable and contribute nothing usable). -/
def flattenAt : FTree → FPath → FS
  | .dir n cs, pp => (pp ++ [n], .dir) :: flattenAtL cs (pp ++ [n])
  | .file n c _, pp => [(pp ++ [n], .file c)]
  | .errEntry _, _ => []

/-- `flattenAt` over a list of children. -/
def flattenAtL : List FTree → FPath → FS
  | [], _ => []
  | t :: ts, pp => flattenAt t pp ++ flattenAtL ts pp
end

mutual
/-- The files a walk of `t` below `pp` records, together with their contents
(the ghost view of `WorkingDir::files` that also remembers file bytes). -/
def wfc (L : List String) : FTree → FPath → List (FPath × List Nat)
  | .errEntry _, _ => []
  | .file n c _, pp => if ignorable n L then [] else [(pp ++ [n], c)]
  | .dir n cs, pp => if ignorable n L then [] else wfcL L cs (pp ++ [n])

/-- `wfc` over a list of children. -/
def wfcL (L : List String) : List FTree → FPath → List (FPath × List Nat)
  | [], _ => []
  | t :: ts, pp => wfc L t pp ++ wfcL L ts pp
end

mutual
/-- The directory entries a walk of `t` below `pp` at depth `d` pushes (the
ghost view of `WorkingDir::dirs`). -/
def wdirs (L : List String) : FTree → FPath → Nat → List DirEntryExt
  | .errEntry _, _, _ => []
  | .file _ _ _, _, _ => []
  | .dir n cs, pp, d =>
    if ignorable n L then [] else ⟨pp ++ [n], d⟩ :: wdirsL L cs (pp ++ [n]) (d + 1)

/-- `wdirs` over a list of children. -/
def wdirsL (L : List String) : List FTree → FPath → Nat → List DirEntryExt
  | [], _, _ => []
  | t :: ts, pp, d => wdirs L t pp d ++ wdirsL L ts pp d
end

/-- A list of names with no duplicates (used for sibling names). -/
def namesND : List OsName → Bool
  | [] => true
  | n :: ns => !(ns.any (fun m => m = n)) && namesND ns

mutual
/-- Sibling file names are pairwise distinct everywhere in the tree — true of
any real directory tree. -/
def nodupT : FTree → Bool
  | .dir _ cs => namesND (cs.map FTree.name) && nodupL cs
  | .file _ _ _ => true
  | .errEntry _ => true

/-- `nodupT` over a list of children. -/
def nodupL : List FTree → Bool
  | [] => true
  | t :: ts => nodupT t && nodupL ts
end

theorem wfcL_mem {L : List String} {ts : List FTree} {pp : FPath}
    {x : FPath × List Nat} : x ∈ wfcL L ts pp ↔ ∃ t ∈ ts, x ∈ wfc L t pp := by
  induction ts with
  | nil => simp [wfcL]
  | cons t ts ih =>
    simp only [wfcL, List.mem_append, ih, List.mem_cons]
    constructor
    · rintro (hx | ⟨u, hu, hxu⟩)
      · exact ⟨t, Or.inl rfl, hx⟩
      · exact ⟨u, Or.inr hu, hxu⟩
    · rintro ⟨u, rfl | hu, hxu⟩
      · exact Or.inl hxu
      · exact Or.inr ⟨u, hu, hxu⟩

theorem wdirsL_mem {L : List String} {ts : List FTree} {pp : FPath} {d : Nat}
    {e : DirEntryExt} : e ∈ wdirsL L ts pp d ↔ ∃ t ∈ ts, e ∈ wdirs L t pp d := by
  induction ts with
  | nil => simp [wdirsL]
  | cons t ts ih =>
    simp only [wdirsL, List.mem_append, ih, List.mem_cons]
    constructor
    · rintro (hx | ⟨u, hu, hxu⟩)
      · exact ⟨t, Or.inl rfl, hx⟩
      · exact ⟨u, Or.inr hu, hxu⟩
    · rintro ⟨u, rfl | hu, hxu⟩
      · exact Or.inl hxu
      · exact Or.inr ⟨u, hu, hxu⟩

theorem flattenAtL_mem {ts : List FTree} {pp : FPath} {kv : FPath × Node} :
    kv ∈ flattenAtL ts pp ↔ ∃ t ∈ ts, kv ∈ flattenAt t pp := by
  induction ts with
  | nil => simp [flattenAtL]
  | cons t ts ih =>
    simp only [flattenAtL, List.mem_append, ih, List.mem_cons]
    constructor
    · rintro (hx | ⟨u, hu, hxu⟩)
      · exact ⟨t, Or.inl rfl, hx⟩
      · exact ⟨u, Or.inr hu, hxu⟩
    · rintro ⟨u, rfl | hu, hxu⟩
      · exact Or.inl hxu
      · exact Or.inr ⟨u, hu, hxu⟩

mutual
/-- On a tree whose size stats all succeed, the walk returns exactly the
ghost views: the pushed directory entries, the recorded file paths, and the
sum of the recorded file sizes. -/
theorem walkVisit_eq_ghost (L : List String) :
    ∀ (t : FTree) (pp : FPath) (d : Nat), statsOk t = true →
      walkVisit L t pp d =
        .ok (wdirs L t pp d, (wfc L t pp).map Prod.fst,
          ((wfc L t pp).map (fun pc => pc.2.length)).sum) := by
  intro t pp d hst
  match t with
  | .errEntry n => rfl
  | .file n c st =>
    have hst' : st = true := hst
    subst hst'
    by_cases hig : ignorable n L = true
    · simp [walkVisit, wdirs, wfc, hig]
    · simp [walkVisit, wdirs, wfc, hig]
  | .dir n cs =>
    have hchild := walkChildren_eq_ghost L cs (pp ++ [n]) (d + 1) hst
    by_cases hig : ignorable n L = true
    · simp [walkVisit, wdirs, wfc, hig]
    · simp [walkVisit, wdirs, wfc, hig, hchild]

/-- `walkVisit_eq_ghost` for a list of children. -/
theorem walkChildren_eq_ghost (L : List String) :
    ∀ (ts : List FTree) (pp : FPath) (d : Nat), statsOkL ts = true →
      walkChildren L ts pp d =
        .ok (wdirsL L ts pp d, (wfcL L ts pp).map Prod.fst,
          ((wfcL L ts pp).map (fun pc => pc.2.length)).sum) := by
  intro ts pp d hst
  match ts with
  | [] => rfl
  | t :: ts =>
    have hst1 : statsOk t = true := by
      have := hst
      simp [statsOkL, Bool.and_eq_true] at this
      exact this.1
    have hst2 : statsOkL ts = true := by
      have := hst
      simp [statsOkL, Bool.and_eq_true] at this
      exact this.2
    have h1 := walkVisit_eq_ghost L t pp d hst1
    have h2 := walkChildren_eq_ghost L ts pp d hst2
    simp [walkChildren, h1, h2, wdirsL, wfcL]
end

/-! ## Structural facts about the ghost views -/

theorem not_prefix_of_length_lt {q r : FPath} (h : r.length < q.length) : ¬ q <+: r :=
  fun hc => absurd hc.length_le (by omega)

theorem head_eq_of_both_prefix {pp r : FPath} {m n : OsName}
    (h1 : pp ++ [m] <+: r) (h2 : pp ++ [n] <+: r) : m = n := by
  rcases List.prefix_or_prefix_of_prefix h1 h2 with hc | hc
  · have heq : pp ++ [m] = pp ++ [n] := hc.eq_of_length (by simp)
    have := List.append_cancel_left heq
    injection this
  · have heq : pp ++ [n] = pp ++ [m] := hc.eq_of_length (by simp)
    have := List.append_cancel_left heq
    injection this.symm

theorem namesND_cons {n : OsName} {ns : List OsName} (h : namesND (n :: ns) = true) :
    (∀ m ∈ ns, m ≠ n) ∧ namesND ns = true := by
  simp only [namesND, Bool.and_eq_true, Bool.not_eq_true'] at h
  obtain ⟨h1, h2⟩ := h
  refine ⟨?_, h2⟩
  intro m hm hc
  have : ns.any (fun m => decide (m = n)) = true := by
    simp only [List.any_eq_true, decide_eq_true_eq]
    exact ⟨m, hm, hc⟩
  rw [this] at h1
  cases h1

theorem nodupL_cons {t : FTree} {ts : List FTree} (h : nodupL (t :: ts) = true) :
    nodupT t = true ∧ nodupL ts = true := by
  simpa [nodupL, Bool.and_eq_true] using h

theorem nodupT_dir {n : OsName} {cs : List FTree} (h : nodupT (.dir n cs) = true) :
    namesND (cs.map FTree.name) = true ∧ nodupL cs = true := by
  simpa [nodupT, Bool.and_eq_true] using h

mutual
theorem wfc_extends (L : List String) :
    ∀ (t : FTree) (pp : FPath) (x : FPath × List Nat), x ∈ wfc L t pp →
      pp ++ [t.name] <+: x.1 := by
  intro t pp x hx
  match t with
  | .errEntry n => simp [wfc] at hx
  | .file n c st =>
    by_cases hig : ignorable n L = true
    · simp [wfc, hig] at hx
    · simp [wfc, hig] at hx
      rw [hx]
      exact List.prefix_refl _
  | .dir n cs =>
    by_cases hig : ignorable n L = true
    · simp [wfc, hig] at hx
    · simp only [wfc, hig, Bool.false_eq_true, if_false] at hx
      obtain ⟨u, -, -, hpre⟩ := wfcL_extends L cs (pp ++ [n]) x hx
      exact (List.prefix_append (pp ++ [n]) [u.name]).trans hpre

theorem wfcL_extends (L : List String) :
    ∀ (ts : List FTree) (pp : FPath) (x : FPath × List Nat), x ∈ wfcL L ts pp →
      ∃ t ∈ ts, x ∈ wfc L t pp ∧ pp ++ [t.name] <+: x.1 := by
  intro ts pp x hx
  match ts with
  | [] => simp [wfcL] at hx
  | t :: ts =>
    rcases List.mem_append.mp hx with hx' | hx'
    · exact ⟨t, List.mem_cons_self t ts, hx', wfc_extends L t pp x hx'⟩
    · obtain ⟨u, hu, hxu, hpre⟩ := wfcL_extends L ts pp x hx'
      exact ⟨u, List.mem_cons_of_mem t hu, hxu, hpre⟩
end

mutual
theorem wdirs_extends (L : List String) :
    ∀ (t : FTree) (pp : FPath) (d : Nat) (e : DirEntryExt), e ∈ wdirs L t pp d →
      pp ++ [t.name] <+: e.path := by
  intro t pp d e he
  match t with
  | .errEntry n => simp [wdirs] at he
  | .file n c st => simp [wdirs] at he
  | .dir n cs =>
    by_cases hig : ignorable n L = true
    · simp [wdirs, hig] at he
    · simp only [wdirs, hig, Bool.false_eq_true, if_false] at he
      rcases List.mem_cons.mp he with rfl | he'
      · exact List.prefix_refl _
      · obtain ⟨u, -, -, hpre⟩ := wdirsL_extends L cs (pp ++ [n]) (d + 1) e he'
        exact (List.prefix_append (pp ++ [n]) [u.name]).trans hpre

theorem wdirsL_extends (L : List String) :
    ∀ (ts : List FTree) (pp : FPath) (d : Nat) (e : DirEntryExt), e ∈ wdirsL L ts pp d →
      ∃ t ∈ ts, e ∈ wdirs L t pp d ∧ pp ++ [t.name] <+: e.path := by
  intro ts pp d e he
  match ts with
  | [] => simp [wdirsL] at he
  | t :: ts =>
    rcases List.mem_append.mp he with he' | he'
    · exact ⟨t, List.mem_cons_self t ts, he', wdirs_extends L t pp d e he'⟩
    · obtain ⟨u, hu, heu, hpre⟩ := wdirsL_extends L ts pp d e he'
      exact ⟨u, List.mem_cons_of_mem t hu, heu, hpre⟩
end

mutual
theorem flattenAt_extends :
    ∀ (t : FTree) (pp : FPath) (kv : FPath × Node), kv ∈ flattenAt t pp →
      pp ++ [t.name] <+: kv.1 := by
  intro t pp kv hkv
  match t with
  | .errEntry n => simp [flattenAt] at hkv
  | .file n c st =>
    simp [flattenAt] at hkv
    rw [hkv]
    exact List.prefix_refl _
  | .dir n cs =>
    simp only [flattenAt] at hkv
    rcases List.mem_cons.mp hkv with rfl | hkv'
    · exact List.prefix_refl _
    · obtain ⟨u, -, -, hpre⟩ := flattenAtL_extends cs (pp ++ [n]) kv hkv'
      exact (List.prefix_append (pp ++ [n]) [u.name]).trans hpre

theorem flattenAtL_extends :
    ∀ (ts : List FTree) (pp : FPath) (kv : FPath × Node), kv ∈ flattenAtL ts pp →
      ∃ t ∈ ts, kv ∈ flattenAt t pp ∧ pp ++ [t.name] <+: kv.1 := by
  intro ts pp kv hkv
  match ts with
  | [] => simp [flattenAtL] at hkv
  | t :: ts =>
    rcases List.mem_append.mp hkv with hkv' | hkv'
    · exact ⟨t, List.mem_cons_self t ts, hkv', flattenAt_extends t pp kv hkv'⟩
    · obtain ⟨u, hu, hkvu, hpre⟩ := flattenAtL_extends ts pp kv hkv'
      exact ⟨u, List.mem_cons_of_mem t hu, hkvu, hpre⟩
end

theorem fsFind_append (σ₁ σ₂ : FS) (p : FPath) :
    fsFind (σ₁ ++ σ₂) p =
      match fsFind σ₁ p with
      | some v => some v
      | none => fsFind σ₂ p := by
  induction σ₁ with
  | nil => rfl
  | cons kv σ₁ ih =>
    obtain ⟨q, n⟩ := kv
    by_cases hq : q = p
    · subst hq
      simp [fsFind]
    · simp only [List.cons_append, fsFind, if_neg hq]
      exact ih

theorem fsFind_eq_none_of_forall {σ : FS} {p : FPath} (h : ∀ kv ∈ σ, kv.1 ≠ p) :
    fsFind σ p = none := by
  induction σ with
  | nil => rfl
  | cons kv σ ih =>
    obtain ⟨q, n⟩ := kv
    simp only [fsFind]
    rw [if_neg (h (q, n) (List.mem_cons_self _ _))]
    exact ih (fun kv hkv => h kv (List.mem_cons_of_mem _ hkv))

mutual
theorem wfc_parent (L : List String) :
    ∀ (t : FTree) (pp : FPath) (d : Nat) (x : FPath × List Nat), x ∈ wfc L t pp →
      x.1.dropLast = pp ∨ ∃ e ∈ wdirs L t pp d, e.path = x.1.dropLast := by
  intro t pp d x hx
  match t with
  | .errEntry n => simp [wfc] at hx
  | .file n c st =>
    by_cases hig : ignorable n L = true
    · simp [wfc, hig] at hx
    · simp [wfc, hig] at hx
      rw [hx]
      exact Or.inl List.dropLast_concat
  | .dir n cs =>
    by_cases hig : ignorable n L = true
    · simp [wfc, hig] at hx
    · simp only [wfc, hig, Bool.false_eq_true, if_false] at hx
      rcases wfcL_parent L cs (pp ++ [n]) (d + 1) x hx with hd | ⟨e, he, hep⟩
      · refine Or.inr ⟨⟨pp ++ [n], d⟩, ?_, hd.symm⟩
        simp [wdirs, hig]
      · refine Or.inr ⟨e, ?_, hep⟩
        simp only [wdirs, hig, Bool.false_eq_true, if_false]
        exact List.mem_cons_of_mem _ he

theorem wfcL_parent (L : List String) :
    ∀ (ts : List FTree) (pp : FPath) (d : Nat) (x : FPath × List Nat), x ∈ wfcL L ts pp →
      x.1.dropLast = pp ∨ ∃ e ∈ wdirsL L ts pp d, e.path = x.1.dropLast := by
  intro ts pp d x hx
  match ts with
  | [] => simp [wfcL] at hx
  | t :: ts =>
    rcases List.mem_append.mp hx with hx' | hx'
    · rcases wfc_parent L t pp d x hx' with hd | ⟨e, he, hep⟩
      · exact Or.inl hd
      · exact Or.inr ⟨e, List.mem_append_left _ he, hep⟩
    · rcases wfcL_parent L ts pp d x hx' with hd | ⟨e, he, hep⟩
      · exact Or.inl hd
      · exact Or.inr ⟨e, List.mem_append_right _ he, hep⟩
end

mutual
theorem wfc_not_prefix_wdirs (L : List String) :
    ∀ (t : FTree) (pp : FPath) (d : Nat) (x : FPath × List Nat) (e : DirEntryExt),
      nodupT t = true → x ∈ wfc L t pp → e ∈ wdirs L t pp d → ¬ x.1 <+: e.path := by
  intro t pp d x e hnd hx he
  match t with
  | .errEntry n => simp [wfc] at hx
  | .file n c st => simp [wdirs] at he
  | .dir n cs =>
    obtain ⟨hnames, hnodL⟩ := nodupT_dir hnd
    by_cases hig : ignorable n L = true
    · simp [wfc, hig] at hx
    · simp only [wfc, wdirs, hig, Bool.false_eq_true, if_false] at hx he
      obtain ⟨u, hu, hxu, hxpre⟩ := wfcL_extends L cs (pp ++ [n]) x hx
      rcases List.mem_cons.mp he with rfl | he'
      · intro hc
        have h1 := hxpre.length_le
        have h2 := hc.length_le
        simp only [List.length_append, List.length_singleton] at h1 h2
        omega
      · exact wfcL_not_prefix_wdirsL L cs (pp ++ [n]) (d + 1) x e hnames hnodL hx he'

theorem wfcL_not_prefix_wdirsL (L : List String) :
    ∀ (ts : List FTree) (pp : FPath) (d : Nat) (x : FPath × List Nat) (e : DirEntryExt),
      namesND (ts.map FTree.name) = true → nodupL ts = true →
      x ∈ wfcL L ts pp → e ∈ wdirsL L ts pp d → ¬ x.1 <+: e.path := by
  intro ts pp d x e hnames hnod hx he
  match ts with
  | [] => simp [wfcL] at hx
  | t :: ts =>
    obtain ⟨hne, hnames'⟩ := namesND_cons (by simpa using hnames)
    obtain ⟨hnt, hnts⟩ := nodupL_cons hnod
    rcases List.mem_append.mp hx with hx' | hx' <;>
      rcases List.mem_append.mp he with he' | he'
    · exact wfc_not_prefix_wdirs L t pp d x e hnt hx' he'
    · obtain ⟨u, hu, -, hupre⟩ := wdirsL_extends L ts pp d e he'
      have hxpre := wfc_extends L t pp x hx'
      intro hc
      have : pp ++ [t.name] <+: e.path := hxpre.trans hc
      have heq := head_eq_of_both_prefix this hupre
      exact hne u.name (List.mem_map_of_mem FTree.name hu) heq.symm
    · obtain ⟨u, hu, -, hupre⟩ := wfcL_extends L ts pp x hx'
      have hepre := wdirs_extends L t pp d e he'
      intro hc
      have : pp ++ [u.name] <+: e.path := hupre.trans hc
      have heq := head_eq_of_both_prefix this hepre
      exact hne u.name (List.mem_map_of_mem FTree.name hu) heq
    · exact wfcL_not_prefix_wdirsL L ts pp d x e hnames' hnts hx' he'
end

mutual
theorem wfc_lookup (L : List String) :
    ∀ (t : FTree) (pp : FPath) (x : FPath × List Nat), nodupT t = true →
      x ∈ wfc L t pp → fsFind (flattenAt t pp) x.1 = some (.file x.2) := by
  intro t pp x hnd hx
  match t with
  | .errEntry n => simp [wfc] at hx
  | .file n c st =>
    by_cases hig : ignorable n L = true
    · simp [wfc, hig] at hx
    · simp [wfc, hig] at hx
      rw [hx]
      simp [flattenAt, fsFind]
  | .dir n cs =>
    obtain ⟨hnames, hnodL⟩ := nodupT_dir hnd
    by_cases hig : ignorable n L = true
    · simp [wfc, hig] at hx
    · simp only [wfc, hig, Bool.false_eq_true, if_false] at hx
      obtain ⟨u, hu, hxu, hxpre⟩ := wfcL_extends L cs (pp ++ [n]) x hx
      have hne : pp ++ [n] ≠ x.1 := by
        intro hc
        have := hxpre.length_le
        rw [← hc] at this
        simp at this
      simp only [flattenAt, fsFind, if_neg hne]
      exact wfcL_lookup L cs (pp ++ [n]) x hnames hnodL hx

theorem wfcL_lookup (L : List String) :
    ∀ (ts : List FTree) (pp : FPath) (x : FPath × List Nat),
      namesND (ts.map FTree.name) = true → nodupL ts = true →
      x ∈ wfcL L ts pp → fsFind (flattenAtL ts pp) x.1 = some (.file x.2) := by
  intro ts pp x hnames hnod hx
  match ts with
  | [] => simp [wfcL] at hx
  | t :: ts =>
    obtain ⟨hne, hnames'⟩ := namesND_cons (by simpa using hnames)
    obtain ⟨hnt, hnts⟩ := nodupL_cons hnod
    show fsFind (flattenAt t pp ++ flattenAtL ts pp) x.1 = some (.file x.2)
    rw [fsFind_append]
    rcases List.mem_append.mp hx with hx' | hx'
    · rw [wfc_lookup L t pp x hnt hx']
    · have hnone : fsFind (flattenAt t pp) x.1 = none := by
        apply fsFind_eq_none_of_forall
        intro kv hkv hc
        have hkpre := flattenAt_extends t pp kv hkv
        obtain ⟨u, hu, -, hupre⟩ := wfcL_extends L ts pp x hx'
        rw [hc] at hkpre
        have heq := head_eq_of_both_prefix hkpre hupre
        exact hne u.name (List.mem_map_of_mem FTree.name hu) heq.symm
      rw [hnone]
      exact wfcL_lookup L ts pp x hnames' hnts hx'
end

/-! ## Success of the directory-creation phase -/

theorem createDirAllGo_ok :
    ∀ (qs : List FPath) (σ : FS),
      (∀ q ∈ qs, ∀ c, fsFind σ q ≠ some (.file c)) →
      ∃ σ', createDirAllGo σ qs = (.ok (), σ') ∧
        (∀ q ∈ qs, fsFind σ' q = some .dir) ∧
        (∀ x, x ∉ qs → fsFind σ' x = fsFind σ x) ∧
        dirsPersist σ σ' := by
  intro qs
  induction qs with
  | nil =>
    exact fun σ _ => ⟨σ, rfl, by simp, fun x _ => rfl, fun r hr => hr⟩
  | cons q qs ih =>
    intro σ hnf
    rcases hf : fsFind σ q with _ | n
    · have hcd : createDir1 σ q = (.ok (), fsSet σ q .dir) := by
        unfold createDir1
        rw [hf]
      obtain ⟨σ', hgo, hdirs, hframe, hpers⟩ := ih (fsSet σ q .dir) (by
        intro q' hq' c
        rw [fsFind_fsSet]
        by_cases hqq : q = q'
        · rw [if_pos hqq]
          simp
        · rw [if_neg hqq]
          exact hnf q' (List.mem_cons_of_mem q hq') c)
      refine ⟨σ', ?_, ?_, ?_, ?_⟩
      · simp only [createDirAllGo, hcd, hgo]
      · intro q' hq'
        rcases List.mem_cons.mp hq' with rfl | hq''
        · exact hpers q' (by rw [fsFind_fsSet, if_pos rfl])
        · exact hdirs q' hq''
      · intro x hx
        have hxq : x ≠ q := fun hc => hx (hc ▸ List.mem_cons_self q qs)
        have hxqs : x ∉ qs := fun hc => hx (List.mem_cons_of_mem q hc)
        rw [hframe x hxqs, fsFind_fsSet, if_neg (fun hc : q = x => hxq hc.symm)]
      · intro r hr
        refine hpers r ?_
        rw [fsFind_fsSet]
        by_cases hqr : q = r
        · rw [if_pos hqr]
        · rw [if_neg hqr]
          exact hr
    · cases n with
      | dir =>
        have hcd : createDir1 σ q = (.ok (), σ) := by
          unfold createDir1
          rw [hf]
        obtain ⟨σ', hgo, hdirs, hframe, hpers⟩ := ih σ (by
          intro q' hq' c
          exact hnf q' (List.mem_cons_of_mem q hq') c)
        refine ⟨σ', ?_, ?_, ?_, hpers⟩
        · simp only [createDirAllGo, hcd, hgo]
        · intro q' hq'
          rcases List.mem_cons.mp hq' with rfl | hq''
          · exact hpers q' hf
          · exact hdirs q' hq''
        · intro x hx
          exact hframe x (fun hc => hx (List.mem_cons_of_mem q hc))
      | file c =>
        exact absurd hf (hnf q (List.mem_cons_self q qs) c)

theorem createDirAll_ok (tgt s : FPath) (σ : FS) (htgt : tgt ≠ [])
    (hnf : ∀ q, q ≠ [] → q <+: tgt ++ s → ∀ c, fsFind σ q ≠ some (.file c)) :
    ∃ σ', createDirAll σ (tgt ++ s) = (.ok (), σ') ∧
      (∀ q, q ≠ [] → q <+: tgt ++ s → fsFind σ' q = some .dir) ∧
      (∀ x, fsFind σ' x = fsFind σ x ∨
        (x ≠ [] ∧ x <+: tgt ++ s ∧ fsFind σ' x = some .dir)) := by
  have hts : tgt ++ s ≠ [] := by
    intro hc
    exact htgt (List.append_eq_nil.mp hc).1
  obtain ⟨σ', hgo, hdirs, hframe, hpers⟩ := createDirAllGo_ok (inits1 (tgt ++ s)) σ (by
    intro q hq c
    obtain ⟨hne, hpre⟩ := mem_inits1.mp hq
    exact hnf q hne hpre c)
  have hcall : createDirAll σ (tgt ++ s) = (.ok (), σ') := by
    obtain ⟨a, as, hcons⟩ := List.exists_cons_of_ne_nil hts
    unfold createDirAll
    rw [hcons]
    show createDirAllGo σ (inits1 (a :: as)) = (.ok (), σ')
    rw [← hcons, hgo]
  refine ⟨σ', hcall, ?_, ?_⟩
  · intro q hne hpre
    exact hdirs q (mem_inits1.mpr ⟨hne, hpre⟩)
  · intro x
    by_cases hmem : x ∈ inits1 (tgt ++ s)
    · obtain ⟨hne, hpre⟩ := mem_inits1.mp hmem
      exact Or.inr ⟨hne, hpre, hdirs x hmem⟩
    · exact Or.inl (hframe x hmem)

theorem loadDirsGo_ok (pb : FPath) (tgt : BifrostPath) (htgt : tgt.path ≠ []) :
    ∀ (fuel : Nat) (h : List DirEntryExt) (σ : FS), h.length = fuel →
      (∀ e ∈ h, ∀ s, stripPrefix pb e.path = some s →
        ∀ q, q ≠ [] → q <+: tgt.path ++ s → ∀ c, fsFind σ q ≠ some (.file c)) →
      ∃ σ', loadDirsGo pb tgt fuel h σ = (.ok (), σ') ∧
        (∀ e ∈ h, ∀ s, stripPrefix pb e.path = some s →
          fsFind σ' (tgt.path ++ s) = some .dir) ∧
        (∀ x, fsFind σ' x = fsFind σ x ∨
          (x ≠ [] ∧ (∃ e ∈ h, ∃ s, stripPrefix pb e.path = some s ∧
            x <+: tgt.path ++ s) ∧ fsFind σ' x = some .dir)) := by
  intro fuel
  induction fuel with
  | zero =>
    intro h σ hlen _
    have : h = [] := List.eq_nil_of_length_eq_zero hlen
    subst this
    exact ⟨σ, rfl, by simp, fun x => Or.inl rfl⟩
  | succ n ih =>
    intro h σ hlen hnf
    rcases hp : heapPop h with _ | ⟨e, rest⟩
    · rw [heapPop_eq_none] at hp
      subst hp
      simp at hlen
    · obtain ⟨hperm, -⟩ := heapPop_perm_min hp
      have hrest_len : rest.length = n := by
        have := hperm.length_eq
        simp at this
        omega
      have hmem_e : e ∈ h := hperm.mem_iff.mpr (List.mem_cons_self _ _)
      have hmem_rest : ∀ x ∈ rest, x ∈ h :=
        fun x hx => hperm.mem_iff.mpr (List.mem_cons_of_mem _ hx)
      rcases hs : stripPrefix pb e.path with _ | s
      · -- strip failure: the entry is silently skipped
        have hld : loadDir pb e tgt σ = (.ok (), σ) := by
          simp only [loadDir, hs]
        obtain ⟨σ', hgo, hdirs, hev⟩ := ih rest σ hrest_len (by
          intro e' he' s' hs'
          exact hnf e' (hmem_rest e' he') s' hs')
        refine ⟨σ', ?_, ?_, ?_⟩
        · simp only [loadDirsGo, hp, hld, bindS, hgo]
        · intro e' he' s' hs'
          rcases List.mem_cons.mp (hperm.mem_iff.mp he') with rfl | he''
          · rw [hs] at hs'
            cases hs'
          · exact hdirs e' he'' s' hs'
        · intro x
          rcases hev x with hun | ⟨hne, ⟨e', he', s', hs', hpre⟩, hdir⟩
          · exact Or.inl hun
          · exact Or.inr ⟨hne, ⟨e', hmem_rest e' he', s', hs', hpre⟩, hdir⟩
      · obtain ⟨σ₁, hcda, hdirs1, hev1⟩ :=
          createDirAll_ok tgt.path s σ htgt (hnf e hmem_e s hs)
        have hld : loadDir pb e tgt σ = (.ok (), σ₁) := by
          simp only [loadDir, hs]
          exact hcda
        obtain ⟨σ', hgo, hdirs2, hev2⟩ := ih rest σ₁ hrest_len (by
          intro e' he' s' hs' q hqne hqpre c
          rcases hev1 q with hun | ⟨-, -, hdir⟩
          · rw [hun]
            exact hnf e' (hmem_rest e' he') s' hs' q hqne hqpre c
          · rw [hdir]
            simp)
        have hcomb : ∀ x, fsFind σ' x = fsFind σ x ∨
            (x ≠ [] ∧ (∃ e' ∈ h, ∃ s', stripPrefix pb e'.path = some s' ∧
              x <+: tgt.path ++ s') ∧ fsFind σ' x = some .dir) := by
          intro x
          rcases hev2 x with hun2 | ⟨hne, ⟨e', he', s', hs', hpre⟩, hdir⟩
          · rcases hev1 x with hun1 | ⟨hne, hpre, hdir⟩
            · exact Or.inl (hun2.trans hun1)
            · exact Or.inr ⟨hne, ⟨e, hmem_e, s, hs, hpre⟩, hun2.trans hdir⟩
          · exact Or.inr ⟨hne, ⟨e', hmem_rest e' he', s', hs', hpre⟩, hdir⟩
        refine ⟨σ', ?_, ?_, hcomb⟩
        · simp only [loadDirsGo, hp, hld, bindS, hgo]
        · intro e' he' s' hs'
          rcases List.mem_cons.mp (hperm.mem_iff.mp he') with rfl | he''
          · rw [hs] at hs'
            cases hs'
            have hd1 : fsFind σ₁ (tgt.path ++ s) = some .dir :=
              hdirs1 (tgt.path ++ s)
                (by
                  intro hc
                  exact htgt (List.append_eq_nil.mp hc).1)
                (List.prefix_refl _)
            rcases hev2 (tgt.path ++ s) with hun | ⟨-, -, hdir⟩
            · rw [hun]
              exact hd1
            · exact hdir
          · exact hdirs2 e' he'' s' hs'

/-! ## Separation facts between the source subtree and the target -/

theorem flattenAt_find_none {t : FTree} {pp q : FPath}
    (hq : ¬ (pp ++ [t.name]) <+: q) : fsFind (flattenAt t pp) q = none :=
  fsFind_eq_none_of_forall (fun kv hkv hc => hq (hc ▸ flattenAt_extends t pp kv hkv))

theorem not_under_tgt {root tgt x : FPath} (hsep1 : ¬ tgt <+: root)
    (hsep2 : ¬ root <+: tgt) (hx : root <+: x) : ¬ tgt <+: x := by
  intro hc
  rcases List.prefix_or_prefix_of_prefix hx hc with h | h
  · exact hsep2 h
  · exact hsep1 h

theorem not_above_tgt {root tgt x : FPath} (hsep2 : ¬ root <+: tgt)
    (hx : root <+: x) : ¬ x <+: tgt :=
  fun hc => hsep2 (hx.trans hc)

theorem tgt_chain_not_file {t : FTree} {pb tgt : FPath} (s : FPath)
    (hsep1 : ¬ tgt <+: pb ++ [t.name]) (hsep2 : ¬ (pb ++ [t.name]) <+: tgt) :
    ∀ q, q ≠ [] → q <+: tgt ++ s → ∀ c, fsFind (flattenAt t pb) q ≠ some (.file c) := by
  intro q _ hpre c hc
  have hkey : (pb ++ [t.name]) <+: q := by
    by_contra hnk
    rw [flattenAt_find_none hnk] at hc
    cases hc
  rcases List.prefix_or_prefix_of_prefix hpre (List.prefix_append tgt s) with h | h
  · exact (not_above_tgt hsep2 hkey) h
  · exact (not_under_tgt hsep1 hsep2 hkey) h

theorem append_prefix_mono {l m m' : FPath} (h : m <+: m') : l ++ m <+: l ++ m' :=
  (List.prefix_append_right_inj l).mpr h

theorem append_left_eq_self {l m : FPath} (h : l ++ m = l) : m = [] := by
  have : l ++ m = l ++ [] := by rw [List.append_nil]; exact h
  exact List.append_cancel_left this

/-- The file-copy phase of the composed load: given a state in which the
target root and every walked directory's target already exist as directories
and which otherwise differs from the flattened source only by directories
created along the target chains, the copy loop succeeds and copies exactly
the walked byte total. -/
theorem files_phase (L : List String) (t : FTree) (pb : FPath) (tgt : BifrostPath)
    (hnd : nodupT t = true)
    (hsep1 : ¬ tgt.path <+: pb ++ [t.name]) (hsep2 : ¬ (pb ++ [t.name]) <+: tgt.path)
    (σ₂ : FS)
    (Htgtdir : fsFind σ₂ tgt.path = some .dir)
    (HD : ∀ de ∈ wdirs L t pb 0, ∀ sd, stripPrefix pb de.path = some sd →
      fsFind σ₂ (tgt.path ++ sd) = some .dir)
    (HV : ∀ x, fsFind σ₂ x = fsFind (flattenAt t pb) x ∨
      (x ≠ [] ∧ (x <+: tgt.path ∨ ∃ de ∈ wdirs L t pb 0, ∃ sd,
        stripPrefix pb de.path = some sd ∧ x <+: tgt.path ++ sd) ∧
        fsFind σ₂ x = some .dir)) :
    ∃ σf, loadFilesGo pb tgt ((wfc L t pb).map Prod.fst) σ₂ =
      (.ok (((wfc L t pb).map (fun pc => pc.2.length)).sum), σf) := by
  -- facts about each walked file
  have hmem : ∀ e ∈ (wfc L t pb).map Prod.fst, ∃ x ∈ wfc L t pb, x.1 = e := by
    intro e he
    obtain ⟨x, hx, hxe⟩ := List.mem_map.mp he
    exact ⟨x, hx, hxe⟩
  have hstrip : ∀ x ∈ wfc L t pb, ∃ s, stripPrefix pb x.1 = some s ∧ s ≠ [] ∧
      x.1 = pb ++ s := by
    intro x hx
    obtain ⟨u, hu⟩ := wfc_extends L t pb x hx
    refine ⟨[t.name] ++ u, ?_, by simp, ?_⟩
    · rw [← hu, List.append_assoc, stripPrefix_append]
    · rw [← hu, List.append_assoc]
  have hnotin : ∀ x ∈ wfc L t pb, ¬ tgt.path <+: x.1 := by
    intro x hx
    exact not_under_tgt hsep1 hsep2 (wfc_extends L t pb x hx)
  -- the target of each file is fresh: neither a directory nor an old entry
  have htgtfresh : ∀ x ∈ wfc L t pb, ∀ s, stripPrefix pb x.1 = some s →
      fsFind σ₂ (tgt.path ++ s) = none := by
    intro x hx s hs
    have hxps : x.1 = pb ++ s := stripPrefix_eq_some hs
    have hsne : s ≠ [] := by
      intro hc
      rw [hc, List.append_nil] at hxps
      have hpre := wfc_extends L t pb x hx
      rw [hxps] at hpre
      have hl := hpre.length_le
      simp only [List.length_append, List.length_singleton] at hl
      omega
    rcases HV (tgt.path ++ s) with hun | ⟨-, hch, -⟩
    · rw [hun]
      apply flattenAt_find_none
      intro hc
      rcases List.prefix_or_prefix_of_prefix hc (List.prefix_append tgt.path s) with h | h
      · exact hsep2 h
      · exact hsep1 h
    · exfalso
      rcases hch with hch | ⟨de, hde, sd, hsd, hch⟩
      · have hl := hch.length_le
        simp only [List.length_append] at hl
        have h0 : s.length = 0 := by omega
        exact hsne (List.eq_nil_of_length_eq_zero h0)
      · have hssd : s <+: sd := (List.prefix_append_right_inj tgt.path).mp hch
        have : x.1 <+: de.path := by
          rw [hxps, stripPrefix_eq_some hsd]
          exact append_prefix_mono hssd
        exact wfc_not_prefix_wdirs L t pb 0 x de hnd hx hde this
  -- each file's source entry is unchanged in σ₂
  have hsrc : ∀ x ∈ wfc L t pb, fsFind σ₂ x.1 = some (.file x.2) := by
    intro x hx
    rcases HV x.1 with hun | ⟨-, hch, -⟩
    · rw [hun]
      exact wfc_lookup L t pb x hnd hx
    · exfalso
      have hroot := wfc_extends L t pb x hx
      rcases hch with hch | ⟨de, hde, sd, hsd, hch⟩
      · exact (not_above_tgt hsep2 hroot) hch
      · rcases List.prefix_or_prefix_of_prefix hch (List.prefix_append tgt.path sd) with h | h
        · exact (not_above_tgt hsep2 hroot) h
        · exact (not_under_tgt hsep1 hsep2 hroot) h
  -- the parent directory of each file's target exists
  have hpar : ∀ x ∈ wfc L t pb, ∀ s, stripPrefix pb x.1 = some s →
      fsFind σ₂ ((tgt.path ++ s).dropLast) = some .dir := by
    intro x hx s hs
    have hxps : x.1 = pb ++ s := stripPrefix_eq_some hs
    have hsne : s ≠ [] := by
      intro hc
      rw [hc, List.append_nil] at hxps
      have hpre := wfc_extends L t pb x hx
      rw [hxps] at hpre
      have hl := hpre.length_le
      simp only [List.length_append, List.length_singleton] at hl
      omega
    rw [List.dropLast_append_of_ne_nil tgt.path hsne]
    rcases wfc_parent L t pb 0 x hx with hplast | ⟨de, hde, hdep⟩
    · -- the file sits directly below the walked parent: its target parent is `tgt`
      have : pb ++ s.dropLast = pb := by
        rw [← List.dropLast_append_of_ne_nil pb hsne, ← hxps]
        exact hplast
      have hsd : s.dropLast = [] := append_left_eq_self this
      rw [hsd, List.append_nil]
      exact Htgtdir
    · -- the file sits below a walked directory
      have hdepath : de.path = pb ++ s.dropLast := by
        rw [hdep, hxps, List.dropLast_append_of_ne_nil pb hsne]
      have hsdstrip : stripPrefix pb de.path = some s.dropLast := by
        rw [hdepath, stripPrefix_append]
      exact HD de hde s.dropLast hsdstrip
  -- the targets of two files never collide with a parent directory
  have hnocollide : ∀ x ∈ wfc L t pb, ∀ x' ∈ wfc L t pb, ∀ s s',
      stripPrefix pb x.1 = some s → stripPrefix pb x'.1 = some s' →
      tgt.path ++ s ≠ (tgt.path ++ s').dropLast := by
    intro x hx x' hx' s s' hs hs' hc
    have hxps : x.1 = pb ++ s := stripPrefix_eq_some hs
    have hxps' : x'.1 = pb ++ s' := stripPrefix_eq_some hs'
    have hsne' : s' ≠ [] := by
      intro hcc
      rw [hcc, List.append_nil] at hxps'
      have hpre := wfc_extends L t pb x' hx'
      rw [hxps'] at hpre
      have hl := hpre.length_le
      simp only [List.length_append, List.length_singleton] at hl
      omega
    rw [List.dropLast_append_of_ne_nil tgt.path hsne'] at hc
    have hss : s = s'.dropLast := List.append_cancel_left hc
    have hxdl : x.1 = x'.1.dropLast := by
      rw [hxps, hxps', List.dropLast_append_of_ne_nil pb hsne', hss]
    rcases wfc_parent L t pb 0 x' hx' with hplast | ⟨de, hde, hdep⟩
    · rw [← hxdl] at hplast
      have hpre := wfc_extends L t pb x hx
      rw [hplast] at hpre
      have hl := hpre.length_le
      simp only [List.length_append, List.length_singleton] at hl
      omega
    · rw [← hxdl] at hdep
      exact wfc_not_prefix_wdirs L t pb 0 x de hnd hx hde (by rw [hdep])
  -- run the copy loop
  obtain ⟨σf, hrun⟩ := loadFilesGo_ok pb tgt ((wfc L t pb).map Prod.fst) σ₂
    (by
      intro e he
      obtain ⟨x, hx, rfl⟩ := hmem e he
      obtain ⟨s, hs, hsne, -⟩ := hstrip x hx
      exact ⟨s, hs, hsne⟩)
    (by
      intro e he
      obtain ⟨x, hx, rfl⟩ := hmem e he
      exact hnotin x hx)
    (by
      intro e he s hs
      obtain ⟨x, hx, rfl⟩ := hmem e he
      exact Or.inr (hpar x hx s hs))
    (by
      intro e he s hs
      obtain ⟨x, hx, rfl⟩ := hmem e he
      rw [htgtfresh x hx s hs]
      simp)
    (by
      intro e he e' he' s s' hs hs'
      obtain ⟨x, hx, rfl⟩ := hmem e he
      obtain ⟨x', hx', rfl⟩ := hmem e' he'
      exact hnocollide x hx x' hx' s s' hs hs')
  refine ⟨σf, ?_⟩
  rw [hrun]
  have hsum : (((wfc L t pb).map Prod.fst).map (sourceSize σ₂)).sum =
      ((wfc L t pb).map (fun pc => pc.2.length)).sum := by
    rw [List.map_map]
    refine congrArg List.sum ?_
    apply List.map_congr_left
    intro x hx
    show sourceSize σ₂ x.1 = x.2.length
    unfold sourceSize
    simp only [hsrc x hx]
  rw [hsum]

/-- A walk started from a fresh `WorkingDir` rooted at the source tree's
location records exactly the ghost directory collection, file list and byte
total, provided every stat in the tree succeeds. -/
theorem walk_new_eq (L : List String) (t : FTree) (pb : FPath)
    (hstats : statsOk t = true) :
    ((WorkingDir.new (pb ++ [t.name])).ignore L).walk t =
      .ok { parent := some pb, root := pb ++ [t.name],
            dirs := wdirs L t pb 0,
            files := (wfc L t pb).map Prod.fst,
            ignore_list := L,
            size := ((wfc L t pb).map (fun pc => pc.2.length)).sum } := by
  have hbase : (WorkingDir.new (pb ++ [t.name])).ignore L =
      { parent := some pb, root := pb ++ [t.name], dirs := [], files := [],
        ignore_list := L, size := 0 } := by
    unfold WorkingDir.new WorkingDir.ignore
    obtain ⟨a, as, hcons⟩ :=
      List.exists_cons_of_ne_nil (show pb ++ [t.name] ≠ [] by simp)
    rw [hcons]
    have hdl : (a :: as).dropLast = pb := by
      rw [← hcons]
      exact List.dropLast_concat
    simp [hdl]
  rw [hbase]
  unfold WorkingDir.walk
  simp only [List.dropLast_concat, walkVisit_eq_ghost L t pb 0 hstats,
    List.nil_append, Nat.zero_add]

/-- Running `try_load` with the walk-recorded `WorkingDir` over the flattened
source tree succeeds and reports exactly the walk-recorded byte total: the
directory phase creates all target directories, the copy phase copies every
walked file, and the final byte-count comparison passes. -/
theorem try_load_ghost_ok (L : List String) (t : FTree) (pb : FPath)
    (tgt : BifrostPath) (hnd : nodupT t = true) (hutf : allUtf8 pb = true)
    (htgt : tgt.path ≠ [])
    (hsep1 : ¬ tgt.path <+: pb ++ [t.name])
    (hsep2 : ¬ (pb ++ [t.name]) <+: tgt.path) :
    ∃ σf, try_load
      { parent := some pb, root := pb ++ [t.name],
        dirs := wdirs L t pb 0, files := (wfc L t pb).map Prod.fst,
        ignore_list := L,
        size := ((wfc L t pb).map (fun pc => pc.2.length)).sum }
      tgt (flattenAt t pb) =
      (.ok { name := "default",
             bytes := some (((wfc L t pb).map (fun pc => pc.2.length)).sum),
             text := none }, σf) := by
  obtain ⟨σf, hload⟩ : ∃ σf,
      _load
        { parent := some pb, root := pb ++ [t.name],
          dirs := wdirs L t pb 0, files := (wfc L t pb).map Prod.fst,
          ignore_list := L,
          size := ((wfc L t pb).map (fun pc => pc.2.length)).sum }
        tgt (flattenAt t pb) =
      (.ok (((wfc L t pb).map (fun pc => pc.2.length)).sum), σf) := by
    show ∃ σf, (if allUtf8 pb = true then
        match heapPop (wdirs L t pb 0) with
        | some (fromE, rest) =>
          bindS (loadTopLevelDir pb fromE tgt (flattenAt t pb)) (fun _ σ₁ =>
            bindS (loadDirsGo pb tgt rest.length rest σ₁) (fun _ σ₂ =>
              loadFilesGo pb tgt ((wfc L t pb).map Prod.fst) σ₂))
        | none =>
          bindS (createDirAll (flattenAt t pb) tgt.path) (fun _ σ₁ =>
            loadFilesGo pb tgt ((wfc L t pb).map Prod.fst) σ₁)
      else
        (.panicked
          ("BUG: `bifrost_load::_load` failed to convert `WorkingDir::parent` `PathBuf` `to_str`"),
          flattenAt t pb)) =
      (.ok (((wfc L t pb).map (fun pc => pc.2.length)).sum), σf)
    rw [if_pos hutf]
    rcases hp : heapPop (wdirs L t pb 0) with _ | ⟨em, rest⟩
    · -- no directories were walked: the bare target path is created
      have hw : wdirs L t pb 0 = [] := heapPop_eq_none.mp hp
      obtain ⟨σ₁, hcda, hdirs1, hev1⟩ :=
        createDirAll_ok tgt.path [] (flattenAt t pb) htgt
          (tgt_chain_not_file [] hsep1 hsep2)
      rw [List.append_nil] at hcda hdirs1 hev1
      obtain ⟨σf, hfiles⟩ := files_phase L t pb tgt hnd hsep1 hsep2 σ₁
        (hdirs1 tgt.path htgt (List.prefix_refl _))
        (by
          intro de hde sd hsd
          rw [hw] at hde
          simp at hde)
        (by
          intro x
          rcases hev1 x with hun | ⟨hne, hpre, hdir⟩
          · exact Or.inl hun
          · exact Or.inr ⟨hne, Or.inl hpre, hdir⟩)
      refine ⟨σf, ?_⟩
      simp only [hp, hcda, bindS]
      exact hfiles
    · -- the top-level directory is popped first, then the rest are drained
      obtain ⟨hperm, -⟩ := heapPop_perm_min hp
      have hmem_em : em ∈ wdirs L t pb 0 := hperm.mem_iff.mpr (List.mem_cons_self _ _)
      have hmem_rest : ∀ x ∈ rest, x ∈ wdirs L t pb 0 :=
        fun x hx => hperm.mem_iff.mpr (List.mem_cons_of_mem _ hx)
      obtain ⟨u, hu⟩ := wdirs_extends L t pb 0 em hmem_em
      have hsm : stripPrefix pb em.path = some ([t.name] ++ u) := by
        rw [← hu, List.append_assoc, stripPrefix_append]
      have hltl : loadTopLevelDir pb em tgt (flattenAt t pb) =
          createDirAll (flattenAt t pb) (tgt.path ++ ([t.name] ++ u)) := by
        simp only [loadTopLevelDir, hsm]
      obtain ⟨σ₁, hcda, hdirs1, hev1⟩ :=
        createDirAll_ok tgt.path ([t.name] ++ u) (flattenAt t pb) htgt
          (tgt_chain_not_file ([t.name] ++ u) hsep1 hsep2)
      obtain ⟨σ₂, hgo, hdirs2, hev2⟩ :=
        loadDirsGo_ok pb tgt htgt rest.length rest σ₁ rfl (by
          intro e he s hs q hqne hqpre c
          rcases hev1 q with hun | ⟨-, -, hdir⟩
          · rw [hun]
            exact tgt_chain_not_file s hsep1 hsep2 q hqne hqpre c
          · rw [hdir]
            simp)
      obtain ⟨σf, hfiles⟩ := files_phase L t pb tgt hnd hsep1 hsep2 σ₂
        (by
          rcases hev2 tgt.path with hun | ⟨-, -, hdir⟩
          · rw [hun]
            exact hdirs1 tgt.path htgt (List.prefix_append _ _)
          · exact hdir)
        (by
          intro de hde sd hsd
          rcases List.mem_cons.mp (hperm.mem_iff.mp hde) with rfl | hde'
          · rw [hsm] at hsd
            cases hsd
            rcases hev2 (tgt.path ++ ([t.name] ++ u)) with hun | ⟨-, -, hdir⟩
            · rw [hun]
              exact hdirs1 (tgt.path ++ ([t.name] ++ u))
                (fun hc => htgt (List.append_eq_nil.mp hc).1) (List.prefix_refl _)
            · exact hdir
          · exact hdirs2 de hde' sd hsd)
        (by
          intro x
          rcases hev2 x with hun2 | ⟨hne, ⟨e', he', s', hs', hpre⟩, hdir⟩
          · rcases hev1 x with hun1 | ⟨hne, hpre, hdir⟩
            · exact Or.inl (hun2.trans hun1)
            · exact Or.inr ⟨hne, Or.inr ⟨em, hmem_em, [t.name] ++ u, hsm, hpre⟩,
                hun2.trans hdir⟩
          · exact Or.inr ⟨hne, Or.inr ⟨e', hmem_rest e' he', s', hs', hpre⟩, hdir⟩)
      refine ⟨σf, ?_⟩
      simp only [hp, hltl, hcda, bindS, hgo]
      exact hfiles
  refine ⟨σf, ?_⟩
  unfold try_load
  rw [hload]
  simp only [bindS]
  rw [if_neg (fun hc => hc rfl)]

/-- The source tree of the C1 witness scenario: `src/` containing a 3-byte
file `a.txt` and a subdirectory `sub/` with a 5-byte file `b.txt`. -/
def treeC1 : FTree :=
  .dir (.utf8 "src")
    [.file (.utf8 "a.txt") [1, 2, 3] true,
     .dir (.utf8 "sub") [.file (.utf8 "b.txt") [4, 5, 6, 7, 8] true]]

/-- The parent directory of the C1 witness scenario's source tree. -/
def pbC1 : FPath := [.utf8 "home"]

/-- The validated target path of the C1 witness scenario. -/
def tgtC1 : BifrostPath := ⟨[.utf8 "bifrost", .utf8 "realm"]⟩

/-- C1: for every workspace load over a tree with no stat failures (walked
from a fresh target that does not overlap the source), the byte total
reported by the materializing load equals the total recorded by the walk
(`WorkingDir.size`); moreover `try_load` only ever succeeds with the
recorded byte count — a mismatched copy total surfaces the incomplete-load
error rather than success — and likewise `LoadSpace::load` only succeeds
when the loaded bytes equal the workspace's recorded size. -/
theorem claim_C1_byte_count_invariant :
    (∀ (L : List String) (t : FTree) (pb : FPath) (tgt : BifrostPath),
      statsOk t = true → nodupT t = true → allUtf8 pb = true → tgt.path ≠ [] →
      ¬ tgt.path <+: pb ++ [t.name] → ¬ (pb ++ [t.name]) <+: tgt.path →
      ∃ wd, ((WorkingDir.new (pb ++ [t.name])).ignore L).walk t = .ok wd ∧
        (try_load wd tgt (flattenAt t pb)).1 =
          .ok { name := "default", bytes := some wd.size, text := none }) ∧
    (∀ (wd : WorkingDir) (tgt : BifrostPath) (σ : FS) (info : OperationInfo)
        (σ' : FS), try_load wd tgt σ = (.ok info, σ') →
      info.bytes = some wd.size) ∧
    (∀ (ls : LoadSpace) (σ : FS) (info : OperationInfo) (σ' : FS),
      LoadSpace.load ls σ = (.ok info, σ') →
      info.bytes = some ls.workspace.size) := by
  refine ⟨?_, ?_, ?_⟩
  · intro L t pb tgt hstats hnd hutf htgt hsep1 hsep2
    refine ⟨_, walk_new_eq L t pb hstats, ?_⟩
    obtain ⟨σf, h⟩ := try_load_ghost_ok L t pb tgt hnd hutf htgt hsep1 hsep2
    rw [h]
  · intro wd tgt σ info σ' h
    unfold try_load at h
    rcases hl : _load wd tgt σ with ⟨r, σ₂⟩
    rw [hl] at h
    cases r with
    | ok b =>
      simp only [bindS] at h
      by_cases hb : b = wd.size
      · rw [if_neg (fun hc => hc hb)] at h
        injection h with h1 h2
        injection h1 with h3
        rw [← h3]
        show some b = some wd.size
        rw [hb]
      · rw [if_pos hb] at h
        simp at h
    | err m => simp only [bindS] at h; simp at h
    | panicked m => simp only [bindS] at h; simp at h
    | exited c => simp only [bindS] at h; simp at h
  · intro ls σ info σ' h
    unfold LoadSpace.load at h
    rcases ht : ls.target with _ | path <;> simp only [ht] at h
    · simp at h
    · rcases hcont : ls.workspace.contents with _ | contents <;>
        simp only [hcont] at h
      · simp only [bindS] at h
        by_cases hb : (0 : Nat) = ls.workspace.size
        · rw [if_neg (fun hc => hc hb)] at h
          rcases hn : ls.workspace.name with _ | name <;> simp only [hn] at h
          · simp at h
          · injection h with h1 h2
            injection h1 with h3
            rw [← h3]
            show some 0 = some ls.workspace.size
            rw [hb]
        · rw [if_pos hb] at h
          simp at h
      · rcases hl : loadContents path contents σ with ⟨r, σ₂⟩
        rw [hl] at h
        cases r with
        | ok n =>
          simp only [bindS] at h
          by_cases hb : n = ls.workspace.size
          · rw [if_neg (fun hc => hc hb)] at h
            rcases hn : ls.workspace.name with _ | name <;> simp only [hn] at h
            · simp at h
            · injection h with h1 h2
              injection h1 with h3
              rw [← h3]
              show some n = some ls.workspace.size
              rw [hb]
          · rw [if_pos hb] at h
            simp at h
        | err m => simp only [bindS] at h; simp at h
        | panicked m => simp only [bindS] at h; simp at h
        | exited c => simp only [bindS] at h; simp at h

/-- Witness for C1: in the concrete scenario — `home/src` holding `a.txt`
(3 bytes) and `sub/b.txt` (5 bytes), loaded into the fresh target
`bifrost/realm` — all hypotheses hold and the composed walk-and-load
succeeds with the walk-recorded byte total. -/
theorem claim_C1_witness :
    (statsOk treeC1 = true ∧ nodupT treeC1 = true ∧ allUtf8 pbC1 = true ∧
      tgtC1.path ≠ [] ∧ ¬ tgtC1.path <+: pbC1 ++ [treeC1.name] ∧
      ¬ (pbC1 ++ [treeC1.name]) <+: tgtC1.path) ∧
    ∃ wd, ((WorkingDir.new (pbC1 ++ [treeC1.name])).ignore []).walk treeC1 = .ok wd ∧
      (try_load wd tgtC1 (flattenAt treeC1 pbC1)).1 =
        .ok { name := "default", bytes := some wd.size, text := none } :=
  ⟨⟨by decide, by decide, by decide, by decide, by decide, by decide⟩,
    claim_C1_byte_count_invariant.1 [] treeC1 pbC1 tgtC1 (by decide) (by decide)
      (by decide) (by decide) (by decide) (by decide)⟩

end Bifrost
